import Mathlib

/-! # Agenda-PRO2: instants, tasks and the query engine

A shallow embedding of `data.cc`, `tasca.cc` and of the query engine declared in
`agenda.hh`, followed by the properties proved about them.

Modelling conventions
* a C++ `int` field is an `Int`; the only arithmetic done on these fields is
  comparison, and `stoi` checks the 32-bit range explicitly;
* a `std::string` is a list of characters (`Str`);
* an `ostream` is represented by the text a printing function appends to it;
* a C++ exception (`std::out_of_range`, `std::invalid_argument`) and undefined
  behaviour are both the value `none`.
-/

namespace AgendaPRO2

/-- A `std::string`, as the list of its characters. -/
abbrev Str := List Char

/-! ## data.cc : `Dia`, `Hora`, `Data` -/

/-- The class `Dia`: three `int` fields. -/
structure Dia where
  dia : Int
  mes : Int
  any : Int
deriving DecidableEq, Repr

/-- The class `Hora`: two `int` fields. -/
structure Hora where
  hora : Int
  minut : Int
deriving DecidableEq, Repr

/-- `Dia::operator<` (data.cc, lines 11-15). -/
def Dia.lt (a d : Dia) : Bool :=
  if a.any ≠ d.any then decide (a.any < d.any)
  else if a.mes ≠ d.mes then decide (a.mes < d.mes)
  else decide (a.dia < d.dia)

/-- `Hora::operator<` (data.cc, lines 30-33). -/
def Hora.lt (a h : Hora) : Bool :=
  if a.hora ≠ h.hora then decide (a.hora < h.hora)
  else decide (a.minut < h.minut)

/-- The type `Data`: `operator<<` reads its members `first` (a `Dia`) and `second`
(an `Hora`), so it is the pair of a date and a time. -/
structure Data where
  first : Dia
  second : Hora
deriving DecidableEq, Repr

/-- The comparison `operator<` of two `Data`, that of `std::pair<Dia, Hora>`: the dates are
compared first with `Dia::operator<`; when neither date precedes the other the times are
compared with `Hora::operator<`. -/
def Data.lt (a b : Data) : Bool :=
  a.first.lt b.first || (!(b.first.lt a.first) && a.second.lt b.second)

/-- Modelled from the spec: the body of `Agenda::ordre_instant::operator()`, declared in
agenda.hh (lines 35-43) with the postcondition "returns whether the element pointed to by
a precedes the one pointed to by b". An instant is identified with the `Data` it points
to, and the order of the instants is the order of these `Data`. -/
def ordre_instant (a b : Data) : Bool :=
  a.lt b

/-! ### Text: `substr`, `stoi`, `operator<<(int)` -/

/-- `std::string::substr(pos, n)`: throws `std::out_of_range` when `pos > size()`,
otherwise yields the characters `[pos, min(pos + n, size()))`. -/
def substr (s : Str) (pos n : Nat) : Option Str :=
  if pos > s.length then none else some ((s.drop pos).take n)

/-- `isspace` in the "C" locale: space, `\t`, `\n`, `\v`, `\f`, `\r`. -/
def isspace (c : Char) : Bool :=
  c.toNat = 32 || (9 ≤ c.toNat && c.toNat ≤ 13)

/-- `isdigit`: the characters `'0'` to `'9'`. -/
def isdigit (c : Char) : Bool :=
  48 ≤ c.toNat && c.toNat ≤ 57

/-- The value of a sequence of decimal digits. -/
def digitsVal (ds : Str) : Nat :=
  ds.foldl (fun acc c => 10 * acc + (c.toNat - 48)) 0

/-- `std::stoi(s)` in base 10: skips leading white space, reads an optional sign and the
longest run of decimal digits; throws `std::invalid_argument` when there is no digit and
`std::out_of_range` when the value does not fit a 32-bit `int`. -/
def stoi (s : Str) : Option Int :=
  let body := s.dropWhile isspace
  let neg : Bool := body.head? = some '-'
  let rest := match body with
    | '-' :: r => r
    | '+' :: r => r
    | r => r
  let ds := rest.takeWhile isdigit
  if ds = [] then none
  else
    let r : Int := if neg then -(digitsVal ds : Int) else (digitsVal ds : Int)
    if r < -2147483648 ∨ 2147483647 < r then none else some r

/-- The text written by `os << i` for an `int` (default formatting flags): the decimal
digits, after a `-` when negative. -/
def printInt (i : Int) : Str :=
  if i < 0 then '-' :: Nat.toDigits 10 i.natAbs else Nat.toDigits 10 i.natAbs

/-- What `if (x < 10) os << 0; os << x` writes for one field. -/
def printField (x : Int) : Str :=
  (if x < 10 then printInt 0 else []) ++ printInt x

/-! ### Constructors from text and printing -/

/-- `Dia::Dia(string s)` (data.cc, lines 8-9): each field is `stoi` of a two-character
`substr`; any exception thrown on the way makes the construction fail. -/
def Dia.of_string (s : Str) : Option Dia := do
  let d ← (substr s 0 2).bind stoi
  let m ← (substr s 3 2).bind stoi
  let a ← (substr s 6 2).bind stoi
  pure ⟨d, m, a⟩

/-- `Dia::print` (data.cc, lines 17-24): the text written to `os`. -/
def Dia.print (d : Dia) : Str :=
  printField d.dia ++ ['.'] ++ printField d.mes ++ ['.'] ++ printField d.any

/-- `Hora::Hora(string s)` (data.cc, line 28). -/
def Hora.of_string (s : Str) : Option Hora := do
  let h ← (substr s 0 2).bind stoi
  let m ← (substr s 3 2).bind stoi
  pure ⟨h, m⟩

/-- `Hora::print` (data.cc, lines 35-40): the text written to `os`. -/
def Hora.print (h : Hora) : Str :=
  printField h.hora ++ [':'] ++ printField h.minut

/-- `operator<<(ostream&, const Data&)` (data.cc, lines 43-48): the text written. -/
def Data.print (d : Data) : Str :=
  d.first.print ++ [' '] ++ d.second.print

/-- The character of a decimal digit `k < 10`. -/
def digitChar (k : Nat) : Char := Char.ofNat (48 + k)

/-- The two-character, zero-padded decimal text of `k < 100`. -/
def twoDigits (k : Nat) : Str := [digitChar (k / 10), digitChar (k % 10)]

/-! ## tasca.cc : `Tasca` -/

/-- `std::string::operator<`: lexicographic comparison of the characters, a proper prefix
being smaller. -/
def string_lt : Str → Str → Bool
  | _, [] => false
  | [], _ :: _ => true
  | a :: as, b :: bs =>
    if a.toNat < b.toNat then true
    else if b.toNat < a.toNat then false
    else string_lt as bs

/-- The insertion of `std::set<string>::insert` on the ascending list of the elements:
the set is left as it is when it holds an element equivalent to `e`. -/
def set_insert (e : Str) : List Str → List Str
  | [] => [e]
  | x :: xs =>
    if string_lt e x then e :: x :: xs
    else if string_lt x e then x :: set_insert e xs
    else x :: xs

/-- The removal of `std::set<string>::erase(key)` on the ascending list of the elements. -/
def set_erase (e : Str) : List Str → List Str
  | [] => []
  | x :: xs =>
    if string_lt e x then x :: xs
    else if string_lt x e then x :: set_erase e xs
    else xs

/-- The invariant of a `std::set<string>`: iteration from `begin()` to `end()` visits the
elements in strictly ascending order. -/
def Ascending (l : List Str) : Prop :=
  l.Pairwise (fun a b => string_lt a b = true)

instance (l : List Str) : Decidable (Ascending l) := by
  unfold Ascending; infer_instance

theorem string_lt_irrefl (a : Str) : string_lt a a = false := by
  induction a with
  | nil => rfl
  | cons x xs ih => simp [string_lt, ih]

theorem string_lt_trans {a b c : Str} (h1 : string_lt a b = true) (h2 : string_lt b c = true) :
    string_lt a c = true := by
  induction a generalizing b c with
  | nil =>
    cases b with
    | nil => simp [string_lt] at h1
    | cons y ys =>
      cases c with
      | nil => simp [string_lt] at h2
      | cons z zs => rfl
  | cons x xs ih =>
    cases b with
    | nil => simp [string_lt] at h1
    | cons y ys =>
      cases c with
      | nil => simp [string_lt] at h2
      | cons z zs =>
        simp only [string_lt] at h1 h2 ⊢
        split_ifs at h1 h2 ⊢ <;> first | rfl | omega | exact ih h1 h2

theorem string_lt_total {a b : Str} (h1 : string_lt a b = false) (h2 : string_lt b a = false) :
    a = b := by
  induction a generalizing b with
  | nil =>
    cases b with
    | nil => rfl
    | cons y ys => simp [string_lt] at h1
  | cons x xs ih =>
    cases b with
    | nil => simp [string_lt] at h2
    | cons y ys =>
      simp only [string_lt] at h1 h2
      split_ifs at h1 h2
      have hxy : x = y := by
        have : x.toNat = y.toNat := by omega
        rw [← Char.ofNat_toNat x, ← Char.ofNat_toNat y, this]
      rw [hxy, ih h1 h2]

theorem mem_set_insert {e y : Str} {l : List Str} (h : y ∈ set_insert e l) : y = e ∨ y ∈ l := by
  induction l with
  | nil => simp [set_insert] at h; exact Or.inl h
  | cons x xs ih =>
    simp only [set_insert] at h
    split_ifs at h
    · simpa using h
    · rcases List.mem_cons.mp h with h | h
      · right; simp [h]
      · rcases ih h with h | h
        · left; exact h
        · right; simp [h]
    · right; exact h

theorem mem_set_erase {e y : Str} {l : List Str} (h : y ∈ set_erase e l) : y ∈ l := by
  induction l with
  | nil => simp [set_erase] at h
  | cons x xs ih =>
    simp only [set_erase] at h
    split_ifs at h
    · exact h
    · rcases List.mem_cons.mp h with h | h
      · simp [h]
      · simp [ih h]
    · simp [h]

theorem set_insert_ascending (e : Str) {l : List Str} (h : Ascending l) :
    Ascending (set_insert e l) := by
  unfold Ascending at *
  induction l with
  | nil => simp [set_insert]
  | cons x xs ih =>
    rw [List.pairwise_cons] at h
    simp only [set_insert]
    split_ifs with h1 h2
    · refine List.pairwise_cons.mpr ⟨?_, List.pairwise_cons.mpr h⟩
      intro y hy
      rcases List.mem_cons.mp hy with hy | hy
      · rw [hy]; exact h1
      · exact string_lt_trans h1 (h.1 y hy)
    · refine List.pairwise_cons.mpr ⟨?_, ih h.2⟩
      intro y hy
      rcases mem_set_insert hy with hy | hy
      · rw [hy]; exact h2
      · exact h.1 y hy
    · exact List.pairwise_cons.mpr h

theorem set_erase_ascending (e : Str) {l : List Str} (h : Ascending l) :
    Ascending (set_erase e l) := by
  unfold Ascending at *
  induction l with
  | nil => simp [set_erase]
  | cons x xs ih =>
    rw [List.pairwise_cons] at h
    simp only [set_erase]
    split_ifs with h1 h2
    · exact List.pairwise_cons.mpr h
    · exact List.pairwise_cons.mpr ⟨fun y hy => h.1 y (mem_set_erase hy), ih h.2⟩
    · exact h.2

/-- A `std::set<string>`: the list of its elements in iteration order, together with the
invariant that this order is strictly ascending. -/
structure StrSet where
  elems : List Str
  asc : Ascending elems

/-- The class `Tasca`: a title and a set of tags. -/
structure Tasca where
  title_ : Str
  tags_ : StrSet

/-- `Tasca::Tasca(string titol)` (tasca.cc, line 7): the tag set starts empty. -/
def Tasca.of_titol (titol : Str) : Tasca :=
  ⟨titol, ⟨[], List.Pairwise.nil⟩⟩

/-- `Tasca::set_titol` (tasca.cc, lines 9-11). -/
def Tasca.set_titol (t : Tasca) (titol : Str) : Tasca :=
  { t with title_ := titol }

/-- `Tasca::add_etiqueta` (tasca.cc, lines 13-15): `tags_.insert(etiq)`. -/
def Tasca.add_etiqueta (t : Tasca) (etiq : Str) : Tasca :=
  { t with tags_ := ⟨set_insert etiq t.tags_.elems, set_insert_ascending etiq t.tags_.asc⟩ }

/-- `Tasca::del_etiqueta` (tasca.cc, lines 17-19): `tags_.erase(etiq)`. -/
def Tasca.del_etiqueta (t : Tasca) (etiq : Str) : Tasca :=
  { t with tags_ := ⟨set_erase etiq t.tags_.elems, set_erase_ascending etiq t.tags_.asc⟩ }

/-- `Tasca::del_etiquetes` (tasca.cc, lines 21-23): `tags_.clear()`. -/
def Tasca.del_etiquetes (t : Tasca) : Tasca :=
  { t with tags_ := ⟨[], List.Pairwise.nil⟩ }

/-- `Tasca::print_titol` (tasca.cc, lines 25-27): the text written. -/
def Tasca.print_titol (t : Tasca) : Str := t.title_

/-- The `while` loop of `Tasca::print_etiquetes` (tasca.cc, lines 33-36), the iterator
being the list of the elements not yet visited: each one is written after " #". -/
def print_etiquetes_loop : List Str → Str
  | [] => []
  | x :: it => [' ', '#'] ++ x ++ print_etiquetes_loop it

/-- `Tasca::print_etiquetes` (tasca.cc, lines 29-37): the text written. The iterator is the
list of the elements from its position to `end()`. The first element, when there is one,
is written after '#'; then `++it` is executed unconditionally, which is undefined behaviour
(`none`) when the iterator is already `end()`; then the loop runs. -/
def Tasca.print_etiquetes (t : Tasca) : Option Str :=
  let it := t.tags_.elems
  let out : Str := match it with
    | [] => []
    | x :: _ => ['#'] ++ x
  match it with
  | [] => none
  | _ :: it => some (out ++ print_etiquetes_loop it)

/-! ## agenda.hh : the merge engine

`agenda.hh` declares `merge_and` and `merge_or`; their bodies are not among the sources
and are modelled from the specification. An `instant` is an iterator into the primary
store `map<Data, Tasca>`; as the keys of a map are unique it is identified with the `Data`
it points to, which is also all that `ordre_instant` looks at. -/

/-- The co-scan of `merge_and`, with the number of steps left as first argument. -/
def merge_and_scan : Nat → List Data → List Data → List Data
  | 0, _, _ => []
  | _ + 1, [], _ => []
  | _ + 1, _ :: _, [] => []
  | n + 1, x :: r, y :: l =>
    if ordre_instant x y then merge_and_scan n r (y :: l)
    else if ordre_instant y x then merge_and_scan n (x :: r) l
    else y :: merge_and_scan n r l

/-- Modelled from the spec: the body of `Agenda::merge_and(in1, in2, l)`, declared in agenda.hh
with the postcondition "l holds the intersection of [in1, in2) and l". A single linear
co-scan of the range `r = [in1, in2)` and of the list `l`: the lagging pointer is advanced
and only matches are emitted. The result is the new content of `l`. Every step consumes
an element of one of the two sequences, so `r.length + l.length` steps are enough. -/
def merge_and (r l : List Data) : List Data :=
  merge_and_scan (r.length + l.length) r l

/-- The co-scan of `merge_or`, with the number of steps left as first argument. -/
def merge_or_scan : Nat → List Data → List Data → List Data
  | 0, _, _ => []
  | _ + 1, [], l => l
  | _ + 1, x :: r, [] => x :: r
  | n + 1, x :: r, y :: l =>
    if ordre_instant x y then x :: merge_or_scan n r (y :: l)
    else if ordre_instant y x then y :: merge_or_scan n (x :: r) l
    else y :: merge_or_scan n r l

/-- Modelled from the spec: the body of `Agenda::merge_or(in1, in2, l)`, declared in agenda.hh
with the postcondition "l holds the union of [in1, in2) and l". A single linear co-scan
that emits the smaller head, and an instant present in both sequences once. The result
is the new content of `l`. -/
def merge_or (r l : List Data) : List Data :=
  merge_or_scan (r.length + l.length) r l

/-- A sequence of instants in ascending instant order without repetition. -/
def AscendingInstants (l : List Data) : Prop :=
  l.Pairwise (fun a b => ordre_instant a b = true)

instance (l : List Data) : Decidable (AscendingInstants l) := by
  unfold AscendingInstants; infer_instance

/-! ## agenda.hh : the agenda and its queries

`agenda.hh` declares the class `Agenda`, its data members and its operations; the bodies
(`agenda.cc`) are not among the sources and are modelled from the specification. -/

/-- The data members of the class `Agenda` (agenda.hh, lines 47-50). The clock is kept as
its `Data`; the primary store `map<Data, Tasca>` is the list of its entries in key order;
the tag index `map<string, set_instant>` is the list of its entries in key order, each
`set_instant` being the list of its instants in order; the menu is a `list<instant>`. -/
structure Agenda where
  clock_ : Data
  tasks_ : List (Data × Tasca)
  tags_ : List (Str × List Data)
  menu_ : List Data

/-- Modelled from the spec: the body of `Agenda::es_passat` ("is_past(instant): instant is not
strictly later than Clock"). -/
def Agenda.es_passat (a : Agenda) (data : Data) : Bool :=
  !(ordre_instant a.clock_ data)

/-- Modelled from the spec: the lookup of a tag in the tag index; "querying for a tag that has
no entries yields an empty ordered set, not an error". -/
def tag_set_find : List (Str × List Data) → Str → List Data
  | [], _ => []
  | (k, s) :: rest, tag => if k = tag then s else tag_set_find rest tag

/-- The instant `d` lies in the range of days `[dia1, dia2]`. -/
def en_rang (dia1 dia2 : Dia) (d : Data) : Bool :=
  !(d.first.lt dia1) && !(dia2.lt d.first)

/-- Modelled from the spec: the window of a query, "non-past instants in the time window":
within the range of days and not past. -/
def Agenda.finestra (a : Agenda) (dia1 dia2 : Dia) (d : Data) : Bool :=
  en_rang dia1 dia2 d && !(a.es_passat d)

/-- Modelled from the spec: "the universal set bounded by the window, excluding past instants":
the instants of the primary store that lie in the window. -/
def Agenda.universal (a : Agenda) (dia1 dia2 : Dia) : List Data :=
  (a.tasks_.map Prod.fst).filter (a.finestra dia1 dia2)

/-- Modelled from the spec: "a bare tag name resolves to the Tag Index's instant set for that
tag, bounded to the requested time window", past instants being excluded from the lookups
used for queries. -/
def Agenda.tag_instants (a : Agenda) (dia1 dia2 : Dia) (tag : Str) : List Data :=
  (tag_set_find a.tags_ tag).filter (a.finestra dia1 dia2)

/-- Modelled from the spec: the expressions over tags, as the "tagged-variant AST (Tag, Not,
And, Or, Group)" of the design notes; negation applies to a tag name ("a factor is an
optionally-negated tag name or a parenthesized sub-expression"). -/
inductive Expr where
  | tag (name : Str)
  | not (name : Str)
  | and (e1 e2 : Expr)
  | or (e1 e2 : Expr)
  | group (e : Expr)
deriving DecidableEq, Repr

/-- A tag set satisfies an expression. -/
def Expr.sat : Expr → List Str → Bool
  | .tag name, tags => decide (name ∈ tags)
  | .not name, tags => decide (name ∉ tags)
  | .and e1 e2, tags => e1.sat tags && e2.sat tags
  | .or e1 e2, tags => e1.sat tags || e2.sat tags
  | .group e, tags => e.sat tags

/-- The lexical units of an expression. -/
inductive Token where
  | lpar
  | rpar
  | and
  | or
  | not
  | name (s : Str)
deriving DecidableEq, Repr

/-- The token of a word: one of the operators `AND`, `OR`, `NOT`, or a tag name. -/
def word_token (w : Str) : List Token :=
  if w = [] then []
  else if w = ['A', 'N', 'D'] then [Token.and]
  else if w = ['O', 'R'] then [Token.or]
  else if w = ['N', 'O', 'T'] then [Token.not]
  else [Token.name w]

/-- Splits the rest of an expression into tokens, `w` being the word read so far: words
are separated by white space and by the parentheses, which are tokens themselves. -/
def tokenize : Str → Str → List Token
  | [], w => word_token w
  | c :: cs, w =>
    if c = '(' then word_token w ++ Token.lpar :: tokenize cs []
    else if c = ')' then word_token w ++ Token.rpar :: tokenize cs []
    else if isspace c then word_token w ++ tokenize cs []
    else tokenize cs (w ++ [c])

mutual

/-- Modelled from the spec: recursive descent for "an expression is a disjunction of terms".
The first argument bounds the depth of the descent. -/
def parse_expr : Nat → List Token → Option (Expr × List Token)
  | 0, _ => none
  | n + 1, ts =>
    match parse_term n ts with
    | none => none
    | some (e, rest) => parse_expr_tail n e rest

/-- The terms that follow `OR`, folded left to right onto `acc`. -/
def parse_expr_tail : Nat → Expr → List Token → Option (Expr × List Token)
  | 0, _, _ => none
  | n + 1, acc, Token.or :: ts =>
    match parse_term n ts with
    | none => none
    | some (e, rest) => parse_expr_tail n (Expr.or acc e) rest
  | _ + 1, acc, ts => some (acc, ts)

/-- Modelled from the spec: "a term is a conjunction of factors". -/
def parse_term : Nat → List Token → Option (Expr × List Token)
  | 0, _ => none
  | n + 1, ts =>
    match parse_factor n ts with
    | none => none
    | some (e, rest) => parse_term_tail n e rest

/-- The factors that follow `AND`, folded left to right onto `acc`. -/
def parse_term_tail : Nat → Expr → List Token → Option (Expr × List Token)
  | 0, _, _ => none
  | n + 1, acc, Token.and :: ts =>
    match parse_factor n ts with
    | none => none
    | some (e, rest) => parse_term_tail n (Expr.and acc e) rest
  | _ + 1, acc, ts => some (acc, ts)

/-- Modelled from the spec: "a factor is an optionally-negated tag name or a parenthesized
sub-expression". -/
def parse_factor : Nat → List Token → Option (Expr × List Token)
  | 0, _ => none
  | _ + 1, Token.not :: Token.name t :: ts => some (Expr.not t, ts)
  | _ + 1, Token.name t :: ts => some (Expr.tag t, ts)
  | n + 1, Token.lpar :: ts =>
    match parse_expr n ts with
    | some (e, Token.rpar :: rest) => some (Expr.group e, rest)
    | _ => none
  | _ + 1, _ => none

end

/-- Modelled from the spec: the parse of an expression text. It succeeds when the whole text is
one expression of the grammar; a malformed text (unbalanced parentheses, unknown operator
token, dangling operator) is a parse error, `none`. -/
def parse_expressio (expressio : Str) : Option Expr :=
  match parse_expr (5 * (tokenize expressio []).length + 5) (tokenize expressio []) with
  | some (e, []) => some e
  | _ => none

/-- Modelled from the spec: the evaluation done by `Agenda::exp_parentitzada` (declared in
agenda.hh with the postcondition "l holds the tasks of the range that satisfy the
expression"), bottom-up: a tag resolves to its bounded instant set, `NOT tag` to the
universal set minus the tag's set, and `AND` / `OR` invoke the merge engine, the list
accumulated so far being the left operand. -/
def Agenda.exp_parentitzada (a : Agenda) (dia1 dia2 : Dia) : Expr → List Data
  | .tag name => a.tag_instants dia1 dia2 name
  | .not name =>
    (a.universal dia1 dia2).filter (fun d => decide (d ∉ a.tag_instants dia1 dia2 name))
  | .and e1 e2 => merge_and (a.exp_parentitzada dia1 dia2 e2) (a.exp_parentitzada dia1 dia2 e1)
  | .or e1 e2 => merge_or (a.exp_parentitzada dia1 dia2 e2) (a.exp_parentitzada dia1 dia2 e1)
  | .group e => a.exp_parentitzada dia1 dia2 e

/-- Modelled from the spec: the body of `Agenda::consulta(dia1, dia2, expressio)`, as far as the
state goes (the rendering of the menu is left out). The query replaces the menu wholesale;
the empty expression matches everything in range; a parse error aborts the query and
leaves the agenda as it was. -/
def Agenda.consulta (a : Agenda) (dia1 dia2 : Dia) (expressio : Str) : Agenda :=
  if expressio = [] then { a with menu_ := a.universal dia1 dia2 }
  else
    match parse_expressio expressio with
    | none => a
    | some e => { a with menu_ := a.exp_parentitzada dia1 dia2 e }

/-- The invariant of the class `Agenda`: the primary store is in strictly ascending key
order (so no two tasks share an instant), the tag index has unique keys and ascending
instant sets, and the index is exactly the inverse of the tasks' tag sets. -/
def Agenda.wf (a : Agenda) : Prop :=
  AscendingInstants (a.tasks_.map Prod.fst) ∧
  (a.tags_.map Prod.fst).Pairwise (fun k1 k2 => k1 ≠ k2) ∧
  (∀ p ∈ a.tags_, AscendingInstants p.2) ∧
  (∀ p ∈ a.tags_, ∀ d ∈ p.2, ∃ q ∈ a.tasks_, q.1 = d ∧ p.1 ∈ q.2.tags_.elems) ∧
  (∀ q ∈ a.tasks_, ∀ tag ∈ q.2.tags_.elems, q.1 ∈ tag_set_find a.tags_ tag)

instance (a : Agenda) : Decidable a.wf := by
  unfold Agenda.wf; infer_instance

/-- The scenario of the specification: the clock at 01.01.24 00:00 and three tasks, at
10.05.24 09:00 tagged "work", at 10.05.24 10:00 tagged "work" and "urgent", and at
11.05.24 08:00 tagged "home", with the tag index that goes with them. -/
def escenari : Agenda :=
  { clock_ := ⟨⟨1, 1, 24⟩, ⟨0, 0⟩⟩,
    tasks_ :=
      [(⟨⟨10, 5, 24⟩, ⟨9, 0⟩⟩, (Tasca.of_titol ['a']).add_etiqueta "work".toList),
       (⟨⟨10, 5, 24⟩, ⟨10, 0⟩⟩,
        ((Tasca.of_titol ['b']).add_etiqueta "work".toList).add_etiqueta "urgent".toList),
       (⟨⟨11, 5, 24⟩, ⟨8, 0⟩⟩, (Tasca.of_titol ['c']).add_etiqueta "home".toList)],
    tags_ :=
      [("home".toList, [⟨⟨11, 5, 24⟩, ⟨8, 0⟩⟩]),
       ("urgent".toList, [⟨⟨10, 5, 24⟩, ⟨10, 0⟩⟩]),
       ("work".toList, [⟨⟨10, 5, 24⟩, ⟨9, 0⟩⟩, ⟨⟨10, 5, 24⟩, ⟨10, 0⟩⟩])],
    menu_ := [] }

/-! ## agenda.hh : the operations that change the agenda

The bodies of these operations are in `agenda.cc`, which is not among the sources; they
are modelled from the specification (sections 3, 4.2, 4.3, 4.6 and 7). -/

/-- The lookup `map<Data, Tasca>::find` on the list of the entries. -/
def store_find : List (Data × Tasca) → Data → Option Tasca
  | [], _ => none
  | (k, v) :: rest, d => if k = d then some v else store_find rest d

/-- The insertion `map<Data, Tasca>::insert` on the list of the entries in key order: an
entry whose key is already there is left as it is. -/
def store_insert (d : Data) (t : Tasca) : List (Data × Tasca) → List (Data × Tasca)
  | [] => [(d, t)]
  | (k, v) :: rest =>
    if ordre_instant d k then (d, t) :: (k, v) :: rest
    else if ordre_instant k d then (k, v) :: store_insert d t rest
    else (k, v) :: rest

/-- The removal `map<Data, Tasca>::erase` of the entry of a key. -/
def store_erase (d : Data) : List (Data × Tasca) → List (Data × Tasca)
  | [] => []
  | (k, v) :: rest => if k = d then rest else (k, v) :: store_erase d rest

/-- The replacement of the task stored at a key by its image under `f`. -/
def store_update (d : Data) (f : Tasca → Tasca) : List (Data × Tasca) → List (Data × Tasca)
  | [] => []
  | (k, v) :: rest => if k = d then (k, f v) :: rest else (k, v) :: store_update d f rest

/-- The insertion `set_instant::insert` on the ascending list of the instants. -/
def instants_insert (d : Data) : List Data → List Data
  | [] => [d]
  | x :: xs =>
    if ordre_instant d x then d :: x :: xs
    else if ordre_instant x d then x :: instants_insert d xs
    else x :: xs

/-- The removal `set_instant::erase` of an instant. -/
def instants_erase (d : Data) : List Data → List Data
  | [] => []
  | x :: xs => if x = d then xs else x :: instants_erase d xs

/-- Modelled from the spec: "adding a tag to a task inserts (tag, instant)" into the tag index,
`tags_[tag].insert(d)` on the list of the entries in key order. -/
def index_insert (tag : Str) (d : Data) : List (Str × List Data) → List (Str × List Data)
  | [] => [(tag, [d])]
  | (k, s) :: rest =>
    if string_lt tag k then (tag, [d]) :: (k, s) :: rest
    else if string_lt k tag then (k, s) :: index_insert tag d rest
    else (k, instants_insert d s) :: rest

/-- Modelled from the spec: "removing a tag removes the stale entry" (tag, instant) from the
tag index. -/
def index_erase (tag : Str) (d : Data) : List (Str × List Data) → List (Str × List Data)
  | [] => []
  | (k, s) :: rest =>
    if k = tag then (k, instants_erase d s) :: rest else (k, s) :: index_erase tag d rest

/-- All the tags of a task are added to the tag index at an instant. -/
def index_insert_all (tags : List Str) (d : Data) (idx : List (Str × List Data)) :
    List (Str × List Data) :=
  tags.foldl (fun i tag => index_insert tag d i) idx

/-- All the (tag, instant) entries of a task are removed from the tag index. -/
def index_erase_all (tags : List Str) (d : Data) (idx : List (Str × List Data)) :
    List (Str × List Data) :=
  tags.foldl (fun i tag => index_erase tag d i) idx

/-- Modelled from the spec: the constructor `Agenda::Agenda()`, "an empty agenda with a clock"
(primary store, tag index and menu created empty). The initial value of the clock is not
given by the specification and is a parameter. -/
def Agenda.buida (rellotge : Data) : Agenda :=
  { clock_ := rellotge, tasks_ := [], tags_ := [], menu_ := [] }

/-- Modelled from the spec: the body of `Agenda::set_rellotge`: "advancing it forward is the only
permitted mutation; it must never be rolled backward". -/
def Agenda.set_rellotge (a : Agenda) (data : Data) : Agenda :=
  if a.es_passat data then a else { a with clock_ := data }

/-- Modelled from the spec: the body of `Agenda::p_add_tasca`, the insertion into the primary
store: it fails, without mutation, if the instant already has a task; "on success, the
task becomes retrievable and all its tags are added to the Tag Index at that instant". -/
def Agenda.p_add_tasca (a : Agenda) (data : Data) (t : Tasca) : Agenda × Bool :=
  if (store_find a.tasks_ data).isSome then (a, false)
  else
    ({ a with
        tasks_ := store_insert data t a.tasks_,
        tags_ := index_insert_all t.tags_.elems data a.tags_ }, true)

/-- Modelled from the spec: the body of `Agenda::add_tasca`, "insert(instant, task) -> bool: fails
(returns false, no mutation) if instant is not strictly later than Clock, or if instant
already has a task". The result is the new state and the value returned. -/
def Agenda.add_tasca (a : Agenda) (data : Data) (t : Tasca) : Agenda × Bool :=
  if a.es_passat data then (a, false) else a.p_add_tasca data t

/-- Modelled from the spec: the body of `Agenda::menu(id)`: the position (from 1) is resolved to
an instant through the menu, and the instant is re-validated as still present and
non-past in the primary store; "looking up an out-of-range position, or one whose
underlying task has since become past or been removed, fails cleanly". -/
def Agenda.menu (a : Agenda) (id : Int) : Option (Data × Tasca) :=
  if id < 1 then none
  else
    match a.menu_[(id - 1).toNat]? with
    | none => none
    | some d =>
      if a.es_passat d then none
      else
        match store_find a.tasks_ d with
        | none => none
        | some t => some (d, t)

/-- Modelled from the spec: the body of `Agenda::set_titol(id, titol)`, the positional edit that
renames the task of the item `id` of the menu. -/
def Agenda.set_titol (a : Agenda) (id : Int) (titol : Str) : Agenda × Bool :=
  match a.menu id with
  | none => (a, false)
  | some (d, _) =>
    ({ a with tasks_ := store_update d (fun t => t.set_titol titol) a.tasks_ }, true)

/-- Modelled from the spec: the body of `Agenda::add_etiqueta(id, etiqueta)`: the tag is added
to the task and (tag, instant) to the tag index. -/
def Agenda.add_etiqueta (a : Agenda) (id : Int) (etiqueta : Str) : Agenda × Bool :=
  match a.menu id with
  | none => (a, false)
  | some (d, _) =>
    ({ a with
        tasks_ := store_update d (fun t => t.add_etiqueta etiqueta) a.tasks_,
        tags_ := index_insert etiqueta d a.tags_ }, true)

/-- Modelled from the spec: the body of `Agenda::del_etiqueta(id, etiqueta)`: the tag is removed
from the task and (tag, instant) from the tag index. -/
def Agenda.del_etiqueta (a : Agenda) (id : Int) (etiqueta : Str) : Agenda × Bool :=
  match a.menu id with
  | none => (a, false)
  | some (d, _) =>
    ({ a with
        tasks_ := store_update d (fun t => t.del_etiqueta etiqueta) a.tasks_,
        tags_ := index_erase etiqueta d a.tags_ }, true)

/-- Modelled from the spec: the body of `Agenda::del_etiquetes(id)`: all the tags of the task are
removed, from the task and from the tag index. -/
def Agenda.del_etiquetes (a : Agenda) (id : Int) : Agenda × Bool :=
  match a.menu id with
  | none => (a, false)
  | some (d, t) =>
    ({ a with
        tasks_ := store_update d (fun t => t.del_etiquetes) a.tasks_,
        tags_ := index_erase_all t.tags_.elems d a.tags_ }, true)

/-- Modelled from the spec: the body of `Agenda::del_tasca(id)`, "remove: fails if the instant's
task is past or absent; on success, removes the task and all (tag, instant) entries from
the Tag Index". The menu is not patched. -/
def Agenda.del_tasca (a : Agenda) (id : Int) : Agenda × Bool :=
  match a.menu id with
  | none => (a, false)
  | some (d, t) =>
    ({ a with
        tasks_ := store_erase d a.tasks_,
        tags_ := index_erase_all t.tags_.elems d a.tags_ }, true)

/-- Modelled from the spec: the body of `Agenda::set_data(id, d)`: "rescheduling a task to an
already-occupied or past instant fails without altering the original entry"; on success
the task moves to the new instant and all its tag entries with it. The menu is not
patched ("rebuilt wholesale per query, no incremental patching"). -/
def Agenda.set_data (a : Agenda) (id : Int) (nova : Data) : Agenda × Bool :=
  match a.menu id with
  | none => (a, false)
  | some (d, t) =>
    if a.es_passat nova then (a, false)
    else if (store_find a.tasks_ nova).isSome then (a, false)
    else
      ({ a with
          tasks_ := store_insert nova t (store_erase d a.tasks_),
          tags_ := index_insert_all t.tags_.elems nova
            (index_erase_all t.tags_.elems d a.tags_) }, true)

/-- Modelled from the spec: the body of `Agenda::set_dia(id, d)`: the rescheduling that keeps the
time of the task. -/
def Agenda.set_dia (a : Agenda) (id : Int) (dia : Dia) : Agenda × Bool :=
  match a.menu id with
  | none => (a, false)
  | some (d, _) => a.set_data id ⟨dia, d.second⟩

/-- Modelled from the spec: the body of `Agenda::set_hora(id, d)`: the rescheduling that keeps
the day of the task. -/
def Agenda.set_hora (a : Agenda) (id : Int) (hora : Hora) : Agenda × Bool :=
  match a.menu id with
  | none => (a, false)
  | some (d, _) => a.set_data id ⟨d.first, hora⟩

/-- Modelled from the spec: the body of `Agenda::consulta(dia, expressio)`, the query
"constrained to the requested day". -/
def Agenda.consulta_dia (a : Agenda) (dia : Dia) (expressio : Str) : Agenda :=
  a.consulta dia dia expressio

/-- Modelled from the spec: the body of `Agenda::consulta(expressio)`, the query over the
"unconstrained full future": the range goes from the day of the first task of the store
to the day of the last one. -/
def Agenda.consulta_tot (a : Agenda) (expressio : Str) : Agenda :=
  match a.tasks_.head?, a.tasks_.getLast? with
  | some p, some q => a.consulta p.1.first q.1.first expressio
  | _, _ => { a with menu_ := [] }

/-- The states of an agenda that its public operations can produce, starting from the
constructor. -/
inductive Agenda.Reachable : Agenda → Prop where
  | buida (rellotge : Data) : Agenda.Reachable (Agenda.buida rellotge)
  | set_rellotge {a : Agenda} (data : Data) (h : Agenda.Reachable a) :
    Agenda.Reachable (a.set_rellotge data)
  | add_tasca {a : Agenda} (data : Data) (t : Tasca) (h : Agenda.Reachable a) :
    Agenda.Reachable (a.add_tasca data t).1
  | set_titol {a : Agenda} (id : Int) (titol : Str) (h : Agenda.Reachable a) :
    Agenda.Reachable (a.set_titol id titol).1
  | set_dia {a : Agenda} (id : Int) (d : Dia) (h : Agenda.Reachable a) :
    Agenda.Reachable (a.set_dia id d).1
  | set_hora {a : Agenda} (id : Int) (d : Hora) (h : Agenda.Reachable a) :
    Agenda.Reachable (a.set_hora id d).1
  | set_data {a : Agenda} (id : Int) (d : Data) (h : Agenda.Reachable a) :
    Agenda.Reachable (a.set_data id d).1
  | add_etiqueta {a : Agenda} (id : Int) (etiqueta : Str) (h : Agenda.Reachable a) :
    Agenda.Reachable (a.add_etiqueta id etiqueta).1
  | del_etiqueta {a : Agenda} (id : Int) (etiqueta : Str) (h : Agenda.Reachable a) :
    Agenda.Reachable (a.del_etiqueta id etiqueta).1
  | del_etiquetes {a : Agenda} (id : Int) (h : Agenda.Reachable a) :
    Agenda.Reachable (a.del_etiquetes id).1
  | del_tasca {a : Agenda} (id : Int) (h : Agenda.Reachable a) :
    Agenda.Reachable (a.del_tasca id).1
  | consulta {a : Agenda} (dia1 dia2 : Dia) (expressio : Str) (h : Agenda.Reachable a) :
    Agenda.Reachable (a.consulta dia1 dia2 expressio)
  | consulta_dia {a : Agenda} (dia : Dia) (expressio : Str) (h : Agenda.Reachable a) :
    Agenda.Reachable (a.consulta_dia dia expressio)
  | consulta_tot {a : Agenda} (expressio : Str) (h : Agenda.Reachable a) :
    Agenda.Reachable (a.consulta_tot expressio)

/-- The invariant of the tag index alone: its keys are in strictly ascending order and
every instant set is in strictly ascending order. -/
def IndexOrdered (idx : List (Str × List Data)) : Prop :=
  Ascending (idx.map Prod.fst) ∧ ∀ tag, AscendingInstants (tag_set_find idx tag)

/-- The invariant that ties the primary store and the tag index together: the keys of the
store are strictly ascending, the index is ordered, and an instant is in the set of a tag
exactly when the store holds at that instant a task that carries the tag. -/
def StoreInv (tasks : List (Data × Tasca)) (idx : List (Str × List Data)) : Prop :=
  AscendingInstants (tasks.map Prod.fst) ∧ IndexOrdered idx ∧
  ∀ tag x, x ∈ tag_set_find idx tag ↔ ∃ t, (x, t) ∈ tasks ∧ tag ∈ t.tags_.elems

/-! ## The wording of the claims about well-formed expressions

The grammar of the specification, written independently of the parser: which trees are
expressions, how a tree is spelled as tokens, and how tokens are laid out as text. -/

/-- The tree `e` is, at level 0, a factor ("an optionally-negated tag name or a
parenthesized sub-expression"), at level 1 a term ("a conjunction of factors"), at level 2
an expression ("a disjunction of terms"). Conjunctions and disjunctions associate to the
left. -/
def Expr.gram : Expr → Nat → Bool
  | .tag _, _ => true
  | .not _, _ => true
  | .group e, _ => e.gram 2
  | .and e1 e2, l => decide (1 ≤ l) && e1.gram 1 && e2.gram 0
  | .or e1 e2, l => decide (2 ≤ l) && e1.gram 2 && e2.gram 1

/-- The tokens that spell a tree. -/
def Expr.tokens : Expr → List Token
  | .tag name => [Token.name name]
  | .not name => [Token.not, Token.name name]
  | .group e => Token.lpar :: e.tokens ++ [Token.rpar]
  | .and e1 e2 => e1.tokens ++ Token.and :: e2.tokens
  | .or e1 e2 => e1.tokens ++ Token.or :: e2.tokens

/-- The text of a token. -/
def spell : Token → Str
  | .lpar => ['(']
  | .rpar => [')']
  | .and => ['A', 'N', 'D']
  | .or => ['O', 'R']
  | .not => ['N', 'O', 'T']
  | .name s => s

/-- A character that can be part of a word: neither white space nor a parenthesis. -/
def word_char (c : Char) : Bool :=
  !isspace c && !decide (c = '(') && !decide (c = ')')

/-- A tag name that can be written in an expression: a non-empty word that is not one of
the operators. -/
def valid_name (w : Str) : Bool :=
  !w.isEmpty && w.all word_char &&
    !decide (w = ['A', 'N', 'D']) && !decide (w = ['O', 'R']) && !decide (w = ['N', 'O', 'T'])

/-- The token is written as a word (an operator or a tag name), not as a parenthesis. -/
def Token.is_word : Token → Bool
  | .lpar => false
  | .rpar => false
  | _ => true

/-- The token can be written: a tag name has to be a valid name. -/
def Token.ok : Token → Bool
  | .name s => valid_name s
  | _ => true

/-- A layout gives, for every token, the white space written before it. It is admissible
when the tokens can be written, the white space is white space, and two consecutive words
are separated by at least one white space character (`prev` tells whether the token before
the list is a word). -/
def layout_ok (prev : Bool) : List (Str × Token) → Bool
  | [] => true
  | (ws, t) :: rest =>
    ws.all isspace && t.ok && (!(prev && t.is_word) || !ws.isEmpty) && layout_ok t.is_word rest

/-- The text of a layout, followed by trailing white space. -/
def layout : List (Str × Token) → Str → Str
  | [], trailing => trailing
  | (ws, t) :: rest, trailing => ws ++ (spell t ++ layout rest trailing)

/-- The text `expressio` is a well-formed expression with tree `e`: `e` is an expression of
the grammar and `expressio` is an admissible layout of the tokens that spell `e`. -/
def WellFormed (expressio : Str) (e : Expr) : Prop :=
  e.gram 2 = true ∧
  ∃ items trailing, layout_ok false items = true ∧ trailing.all isspace = true ∧
    items.map Prod.snd = e.tokens ∧ expressio = layout items trailing

/-- The scenario of the specification as a state reached through the operations: from the
empty agenda with the clock at 01.01.24 00:00, the three tasks are added one by one. -/
def escenari_assolit : Agenda :=
  ((((Agenda.buida ⟨⟨1, 1, 24⟩, ⟨0, 0⟩⟩).add_tasca ⟨⟨10, 5, 24⟩, ⟨10, 0⟩⟩
      (((Tasca.of_titol ['b']).add_etiqueta "work".toList).add_etiqueta "urgent".toList)).1
    |>.add_tasca ⟨⟨11, 5, 24⟩, ⟨8, 0⟩⟩ ((Tasca.of_titol ['c']).add_etiqueta "home".toList)).1
    |>.add_tasca ⟨⟨10, 5, 24⟩, ⟨9, 0⟩⟩ ((Tasca.of_titol ['a']).add_etiqueta "work".toList)).1

/-! ## The wording of the claims about `Dia(string)` -/

/-- The text without one optional leading sign. -/
def skip_sign : Str → Str
  | [] => []
  | c :: r => if c = '+' ∨ c = '-' then r else c :: r

/-- The words of the claim about a field of `Dia(string)`: the field "begins, after
optional leading whitespace and an optional sign, with a decimal digit". -/
def spec_begins_with_digit (u : Str) : Bool :=
  match skip_sign (u.dropWhile isspace) with
  | [] => false
  | c :: _ => isdigit c

/-! ## Theorems -/

theorem Dia_lt_iff (a b : Dia) :
    a.lt b = true ↔
      a.any < b.any ∨ (a.any = b.any ∧ (a.mes < b.mes ∨ (a.mes = b.mes ∧ a.dia < b.dia))) := by
  unfold Dia.lt
  by_cases h1 : a.any = b.any
  · by_cases h2 : a.mes = b.mes
    · simp [h1, h2]
    · simp [h1, h2]
  · simp [h1]

theorem Hora_lt_iff (a b : Hora) :
    a.lt b = true ↔ a.hora < b.hora ∨ (a.hora = b.hora ∧ a.minut < b.minut) := by
  unfold Hora.lt
  by_cases h1 : a.hora = b.hora
  · simp [h1]
  · simp [h1]

/-- The instant order, spelled out on the five integer fields. -/
theorem ordre_instant_iff (a b : Data) :
    ordre_instant a b = true ↔
      a.first.any < b.first.any ∨ (a.first.any = b.first.any ∧
      (a.first.mes < b.first.mes ∨ (a.first.mes = b.first.mes ∧
      (a.first.dia < b.first.dia ∨ (a.first.dia = b.first.dia ∧
      (a.second.hora < b.second.hora ∨ (a.second.hora = b.second.hora ∧
        a.second.minut < b.second.minut))))))) := by
  unfold ordre_instant Data.lt
  rw [Bool.or_eq_true, Bool.and_eq_true, Bool.not_eq_true', Bool.eq_false_iff]
  simp only [ne_eq, Dia_lt_iff, Hora_lt_iff]
  omega

/-- C1: the instant order (dates by `Dia::operator<` first, times by `Hora::operator<`
when neither date precedes the other) is a strict total order: it is irreflexive,
transitive, and two instants neither of which precedes the other agree on year, month,
day, hour and minute. -/
theorem C1_ordre_instant_strict_total (a b c : Data) :
    ordre_instant a a = false ∧
    (ordre_instant a b = true → ordre_instant b c = true → ordre_instant a c = true) ∧
    (ordre_instant a b = false → ordre_instant b a = false →
      a.first.any = b.first.any ∧ a.first.mes = b.first.mes ∧ a.first.dia = b.first.dia ∧
      a.second.hora = b.second.hora ∧ a.second.minut = b.second.minut) := by
  refine ⟨?_, ?_, ?_⟩
  · rw [← Bool.not_eq_true, ordre_instant_iff]; omega
  · rw [ordre_instant_iff, ordre_instant_iff, ordre_instant_iff]; omega
  · rw [← Bool.not_eq_true, ← Bool.not_eq_true, ordre_instant_iff, ordre_instant_iff]; omega

/-- Witness for C1: three increasing instants (same day, later times). -/
theorem C1_ordre_instant_strict_total_witness :
    ordre_instant ⟨⟨1, 2, 3⟩, ⟨4, 5⟩⟩ ⟨⟨1, 2, 3⟩, ⟨4, 6⟩⟩ = true ∧
    ordre_instant ⟨⟨1, 2, 3⟩, ⟨4, 6⟩⟩ ⟨⟨1, 2, 3⟩, ⟨5, 0⟩⟩ = true ∧
    ordre_instant ⟨⟨1, 2, 3⟩, ⟨4, 5⟩⟩ ⟨⟨1, 2, 3⟩, ⟨5, 0⟩⟩ = true :=
  ⟨by decide, by decide,
    (C1_ordre_instant_strict_total ⟨⟨1, 2, 3⟩, ⟨4, 5⟩⟩ ⟨⟨1, 2, 3⟩, ⟨4, 6⟩⟩ ⟨⟨1, 2, 3⟩, ⟨5, 0⟩⟩).2.1
      (by decide) (by decide)⟩

/-- C2: `Dia::operator<` holds exactly when (any, mes, dia) of the left operand is
lexicographically smaller than that of the right one: year first, month only on equal
years, day only on equal year and month. -/
theorem C2_Dia_lt_lexicographic (a b : Dia) :
    a.lt b = true ↔
      a.any < b.any ∨ (a.any = b.any ∧ (a.mes < b.mes ∨ (a.mes = b.mes ∧ a.dia < b.dia))) := by
  unfold Dia.lt
  rcases lt_trichotomy a.any b.any with h | h | h
  · have hne : a.any ≠ b.any := ne_of_lt h
    simp [hne, h]
  · rcases lt_trichotomy a.mes b.mes with h2 | h2 | h2
    · have hne : a.mes ≠ b.mes := ne_of_lt h2
      simp [h, hne, h2]
    · simp [h, h2]
    · have hne : a.mes ≠ b.mes := ne_of_gt h2
      simp [h, hne]
  · have hne : a.any ≠ b.any := ne_of_gt h
    simp [hne]

/-- C3: `Hora::operator<` holds exactly when the left hour is smaller, or the hours are
equal and the left minute is smaller. -/
theorem C3_Hora_lt_lexicographic (a b : Hora) :
    a.lt b = true ↔ a.hora < b.hora ∨ (a.hora = b.hora ∧ a.minut < b.minut) := by
  unfold Hora.lt
  rcases lt_trichotomy a.hora b.hora with h | h | h
  · have hne : a.hora ≠ b.hora := ne_of_lt h
    simp [hne, h]
  · simp [h]
  · have hne : a.hora ≠ b.hora := ne_of_gt h
    simp [hne]

/-! ### Round trips between text and instants -/

theorem printField_eq_twoDigits (k : Nat) (hk : k ≤ 99) :
    printField (k : Int) = twoDigits k := by
  interval_cases k <;> rfl

theorem printField_of_range (x : Int) (h0 : 0 ≤ x) (h1 : x ≤ 99) :
    printField x = twoDigits x.toNat := by
  obtain ⟨k, rfl⟩ := Int.eq_ofNat_of_zero_le h0
  have hk : k ≤ 99 := by omega
  simpa using printField_eq_twoDigits k hk

theorem stoi_twoDigits (k : Nat) (hk : k ≤ 99) : stoi (twoDigits k) = some (k : Int) := by
  interval_cases k <;> rfl

theorem Dia_of_string_canonical (a b c : Nat) (ha : a ≤ 99) (hb : b ≤ 99) (hc : c ≤ 99) :
    Dia.of_string (twoDigits a ++ ['.'] ++ twoDigits b ++ ['.'] ++ twoDigits c)
      = some ⟨a, b, c⟩ := by
  have h1 : substr (twoDigits a ++ ['.'] ++ twoDigits b ++ ['.'] ++ twoDigits c) 0 2
      = some (twoDigits a) := rfl
  have h2 : substr (twoDigits a ++ ['.'] ++ twoDigits b ++ ['.'] ++ twoDigits c) 3 2
      = some (twoDigits b) := rfl
  have h3 : substr (twoDigits a ++ ['.'] ++ twoDigits b ++ ['.'] ++ twoDigits c) 6 2
      = some (twoDigits c) := rfl
  unfold Dia.of_string
  rw [h1, h2, h3]
  simp [stoi_twoDigits, ha, hb, hc]

theorem Hora_of_string_canonical (a b : Nat) (ha : a ≤ 99) (hb : b ≤ 99) :
    Hora.of_string (twoDigits a ++ [':'] ++ twoDigits b) = some ⟨a, b⟩ := by
  have h1 : substr (twoDigits a ++ [':'] ++ twoDigits b) 0 2 = some (twoDigits a) := rfl
  have h2 : substr (twoDigits a ++ [':'] ++ twoDigits b) 3 2 = some (twoDigits b) := rfl
  unfold Hora.of_string
  rw [h1, h2]
  simp [stoi_twoDigits, ha, hb]

theorem Dia_print_of_range (d : Dia) (h1 : 0 ≤ d.dia ∧ d.dia ≤ 99)
    (h2 : 0 ≤ d.mes ∧ d.mes ≤ 99) (h3 : 0 ≤ d.any ∧ d.any ≤ 99) :
    d.print = twoDigits d.dia.toNat ++ ['.'] ++ twoDigits d.mes.toNat ++ ['.']
      ++ twoDigits d.any.toNat := by
  unfold Dia.print
  rw [printField_of_range _ h1.1 h1.2, printField_of_range _ h2.1 h2.2,
    printField_of_range _ h3.1 h3.2]

theorem Hora_print_of_range (h : Hora) (h1 : 0 ≤ h.hora ∧ h.hora ≤ 99)
    (h2 : 0 ≤ h.minut ∧ h.minut ≤ 99) :
    h.print = twoDigits h.hora.toNat ++ [':'] ++ twoDigits h.minut.toNat := by
  unfold Hora.print
  rw [printField_of_range _ h1.1 h1.2, printField_of_range _ h2.1 h2.2]

/-- C4: parsing a printed instant yields an equal instant. For a `Dia` whose day, month
and year are in 0..99, `Dia(string)` applied to the text of `Dia::print` succeeds with the
same three fields; for an `Hora` whose hour and minute are in 0..99, `Hora(string)` applied
to the text of `Hora::print` succeeds with the same two fields. -/
theorem C4_parse_print_roundtrip (d : Dia) (h : Hora)
    (hdia : 0 ≤ d.dia ∧ d.dia ≤ 99) (hmes : 0 ≤ d.mes ∧ d.mes ≤ 99)
    (hany : 0 ≤ d.any ∧ d.any ≤ 99)
    (hhora : 0 ≤ h.hora ∧ h.hora ≤ 99) (hminut : 0 ≤ h.minut ∧ h.minut ≤ 99) :
    Dia.of_string d.print = some d ∧ Hora.of_string h.print = some h := by
  constructor
  · rw [Dia_print_of_range d hdia hmes hany,
      Dia_of_string_canonical _ _ _ (by omega) (by omega) (by omega)]
    obtain ⟨x, y, z⟩ := d
    simp only [Option.some.injEq, Dia.mk.injEq]
    simp only at hdia hmes hany
    omega
  · rw [Hora_print_of_range h hhora hminut,
      Hora_of_string_canonical _ _ (by omega) (by omega)]
    obtain ⟨x, y⟩ := h
    simp only [Option.some.injEq, Hora.mk.injEq]
    simp only at hhora hminut
    omega

/-- Witness for C4: the date 07.11.24 and the time 09:05. -/
theorem C4_parse_print_roundtrip_witness :
    Dia.of_string (Dia.print ⟨7, 11, 24⟩) = some ⟨7, 11, 24⟩ ∧
    Hora.of_string (Hora.print ⟨9, 5⟩) = some ⟨9, 5⟩ :=
  C4_parse_print_roundtrip ⟨7, 11, 24⟩ ⟨9, 5⟩ (by decide) (by decide) (by decide)
    (by decide) (by decide)

/-- C6: for a `Data` whose five fields are in 0..99, `operator<<` writes exactly the 14
characters "dd.mm.yy hh:mm": two zero-padded decimal digits of the day, a dot, two of the
month, a dot, two of the year, one space, two of the hour, a colon, two of the minute. -/
theorem C6_print_format (x : Data)
    (hdia : 0 ≤ x.first.dia ∧ x.first.dia ≤ 99) (hmes : 0 ≤ x.first.mes ∧ x.first.mes ≤ 99)
    (hany : 0 ≤ x.first.any ∧ x.first.any ≤ 99)
    (hhora : 0 ≤ x.second.hora ∧ x.second.hora ≤ 99)
    (hminut : 0 ≤ x.second.minut ∧ x.second.minut ≤ 99) :
    x.print =
      [digitChar (x.first.dia.toNat / 10), digitChar (x.first.dia.toNat % 10), '.',
       digitChar (x.first.mes.toNat / 10), digitChar (x.first.mes.toNat % 10), '.',
       digitChar (x.first.any.toNat / 10), digitChar (x.first.any.toNat % 10), ' ',
       digitChar (x.second.hora.toNat / 10), digitChar (x.second.hora.toNat % 10), ':',
       digitChar (x.second.minut.toNat / 10), digitChar (x.second.minut.toNat % 10)] ∧
    x.print.length = 14 := by
  have hp : x.print =
      [digitChar (x.first.dia.toNat / 10), digitChar (x.first.dia.toNat % 10), '.',
       digitChar (x.first.mes.toNat / 10), digitChar (x.first.mes.toNat % 10), '.',
       digitChar (x.first.any.toNat / 10), digitChar (x.first.any.toNat % 10), ' ',
       digitChar (x.second.hora.toNat / 10), digitChar (x.second.hora.toNat % 10), ':',
       digitChar (x.second.minut.toNat / 10), digitChar (x.second.minut.toNat % 10)] := by
    unfold Data.print
    rw [Dia_print_of_range x.first hdia hmes hany, Hora_print_of_range x.second hhora hminut]
    rfl
  refine ⟨hp, ?_⟩
  rw [hp]
  rfl

/-- Witness for C6: the instant 07.11.24 09:05. -/
theorem C6_print_format_witness :
    Data.print ⟨⟨7, 11, 24⟩, ⟨9, 5⟩⟩ = "07.11.24 09:05".toList ∧
    (Data.print ⟨⟨7, 11, 24⟩, ⟨9, 5⟩⟩).length = 14 :=
  C6_print_format ⟨⟨7, 11, 24⟩, ⟨9, 5⟩⟩ (by decide) (by decide) (by decide)
    (by decide) (by decide)

theorem isdigit_eq_digitChar (c : Char) (h : isdigit c = true) :
    ∃ i, i ≤ 9 ∧ c = digitChar i := by
  unfold isdigit at h
  simp only [Bool.and_eq_true, decide_eq_true_eq] at h
  refine ⟨c.toNat - 48, by omega, ?_⟩
  unfold digitChar
  have h48 : 48 + (c.toNat - 48) = c.toNat := by omega
  rw [h48, Char.ofNat_toNat]

theorem digit_pair_eq_twoDigits (a b : Char) (ha : isdigit a = true) (hb : isdigit b = true) :
    ∃ k, k ≤ 99 ∧ [a, b] = twoDigits k := by
  obtain ⟨i, hi, rfl⟩ := isdigit_eq_digitChar a ha
  obtain ⟨j, hj, rfl⟩ := isdigit_eq_digitChar b hb
  refine ⟨10 * i + j, by omega, ?_⟩
  unfold twoDigits
  have h1 : (10 * i + j) / 10 = i := by omega
  have h2 : (10 * i + j) % 10 = j := by omega
  rw [h1, h2]

/-- C5, as stated, fails: `Dia(string)` accepts "01.02.2003" (it reads the year from the
two characters at offsets 6 and 7) and `Dia::print` then writes "01.02.20"; `Hora(string)`
accepts "09:05:30" and `Hora::print` then writes "09:05". -/
theorem C5_print_parse_counterexample :
    (Dia.of_string "01.02.2003".toList).map Dia.print = some "01.02.20".toList ∧
    "01.02.20".toList ≠ "01.02.2003".toList ∧
    (Hora.of_string "09:05:30".toList).map Hora.print = some "09:05".toList ∧
    "09:05".toList ≠ "09:05:30".toList := by
  refine ⟨rfl, by decide, rfl, by decide⟩

/-- C5 (amended): for every text of the exact form "dd.mm.yy" (eight characters: two
decimal digits, a dot, two digits, a dot, two digits) `Dia(string)` succeeds and
`Dia::print` of the result writes that same text; for every text of the exact form
"hh:mm" `Hora(string)` succeeds and `Hora::print` of the result writes that same text. -/
theorem C5_print_parse_canonical (a b c d e f : Char)
    (ha : isdigit a = true) (hb : isdigit b = true) (hc : isdigit c = true)
    (hd : isdigit d = true) (he : isdigit e = true) (hf : isdigit f = true) :
    (Dia.of_string [a, b, '.', c, d, '.', e, f]).map Dia.print
      = some [a, b, '.', c, d, '.', e, f] ∧
    (Hora.of_string [a, b, ':', c, d]).map Hora.print = some [a, b, ':', c, d] := by
  obtain ⟨k1, hk1, e1⟩ := digit_pair_eq_twoDigits a b ha hb
  obtain ⟨k2, hk2, e2⟩ := digit_pair_eq_twoDigits c d hc hd
  obtain ⟨k3, hk3, e3⟩ := digit_pair_eq_twoDigits e f he hf
  have hs : [a, b, '.', c, d, '.', e, f]
      = twoDigits k1 ++ ['.'] ++ twoDigits k2 ++ ['.'] ++ twoDigits k3 := by
    rw [← e1, ← e2, ← e3]; rfl
  have ht : [a, b, ':', c, d] = twoDigits k1 ++ [':'] ++ twoDigits k2 := by
    rw [← e1, ← e2]; rfl
  constructor
  · rw [hs, Dia_of_string_canonical k1 k2 k3 hk1 hk2 hk3, Option.map_some']
    rw [Dia_print_of_range ⟨k1, k2, k3⟩ (by simp; omega) (by simp; omega) (by simp; omega)]
    simp
  · rw [ht, Hora_of_string_canonical k1 k2 hk1 hk2, Option.map_some']
    rw [Hora_print_of_range ⟨k1, k2⟩ (by simp; omega) (by simp; omega)]
    simp

/-- Witness for the amended C5: the texts "07.11.24" and "07:11". -/
theorem C5_print_parse_canonical_witness :
    (Dia.of_string "07.11.24".toList).map Dia.print = some "07.11.24".toList ∧
    (Hora.of_string "07:11".toList).map Hora.print = some "07:11".toList :=
  C5_print_parse_canonical '0' '7' '1' '1' '2' '4' (by decide) (by decide) (by decide)
    (by decide) (by decide) (by decide)

/-! ### Tasks: the tag set and its rendering -/

theorem string_lt_ne {a b : Str} (h : string_lt a b = true) : a ≠ b := by
  intro hab
  rw [hab, string_lt_irrefl] at h
  exact Bool.false_ne_true h

theorem Ascending_nodup {l : List Str} (h : Ascending l) : l.Nodup :=
  List.Pairwise.imp (fun hab => string_lt_ne hab) h

theorem set_insert_of_mem {e : Str} {l : List Str} (h : Ascending l) (he : e ∈ l) :
    set_insert e l = l := by
  unfold Ascending at h
  induction l with
  | nil => simp at he
  | cons x xs ih =>
    rw [List.pairwise_cons] at h
    simp only [set_insert]
    rcases List.mem_cons.mp he with he | he
    · rw [he, string_lt_irrefl]; simp
    · have hxe : string_lt x e = true := h.1 e he
      have hex : string_lt e x = false := by
        cases hc : string_lt e x with
        | false => rfl
        | true => exact absurd (string_lt_trans hc hxe) (by rw [string_lt_irrefl]; simp)
      rw [hex, hxe, ih h.2 he]; simp

theorem set_erase_of_not_mem {e : Str} {l : List Str} (he : e ∉ l) : set_erase e l = l := by
  induction l with
  | nil => rfl
  | cons x xs ih =>
    rw [List.mem_cons, not_or] at he
    simp only [set_erase]
    split_ifs with h1 h2
    · rfl
    · rw [ih he.2]
    · exact absurd (string_lt_total (by simpa using h1) (by simpa using h2)) he.1

theorem mem_set_insert_self (e : Str) (l : List Str) : e ∈ set_insert e l := by
  induction l with
  | nil => simp [set_insert]
  | cons x xs ih =>
    simp only [set_insert]
    split_ifs with h1 h2
    · simp
    · simp [ih]
    · have hex : e = x := string_lt_total (by simpa using h1) (by simpa using h2)
      rw [hex]; simp

theorem not_mem_set_erase_self (e : Str) {l : List Str} (h : Ascending l) :
    e ∉ set_erase e l := by
  unfold Ascending at h
  induction l with
  | nil => simp [set_erase]
  | cons x xs ih =>
    rw [List.pairwise_cons] at h
    simp only [set_erase]
    split_ifs with h1 h2
    · intro hm
      rcases List.mem_cons.mp hm with hm | hm
      · exact string_lt_ne h1 hm
      · exact string_lt_ne (string_lt_trans h1 (h.1 e hm)) rfl
    · intro hm
      rcases List.mem_cons.mp hm with hm | hm
      · exact string_lt_ne h2 hm.symm
      · exact ih h.2 hm
    · have hex : e = x := string_lt_total (by simpa using h1) (by simpa using h2)
      rw [hex]
      intro hm
      exact string_lt_ne (h.1 x hm) rfl

theorem print_etiquetes_loop_eq (x : Str) (it : List Str) :
    ('#' :: x) ++ print_etiquetes_loop it
      = List.intercalate [' '] ((x :: it).map (fun e => '#' :: e)) := by
  induction it generalizing x with
  | nil => simp [print_etiquetes_loop, List.intercalate]
  | cons y ys ih =>
    have h := ih y
    simp only [List.intercalate, List.map_cons, List.intersperse, List.flatten_cons,
      print_etiquetes_loop, List.cons_append, List.nil_append, List.append_assoc] at h ⊢
    rw [h]

/-- C7: for a task with at least one tag, `Tasca::print_etiquetes` terminates normally and
writes "#t1 #t2 ... #tn" for the tags t1..tn of the task: every tag once (the enumeration
has no repetition), each right after the marker '#', consecutive tags separated by exactly
one space, nothing before the first marker and nothing after the last tag. -/
theorem C7_print_etiquetes_format (t : Tasca) (h : t.tags_.elems ≠ []) :
    t.tags_.elems.Nodup ∧
    t.print_etiquetes
      = some (List.intercalate [' '] (t.tags_.elems.map (fun e => '#' :: e))) := by
  refine ⟨Ascending_nodup t.tags_.asc, ?_⟩
  unfold Tasca.print_etiquetes
  cases hl : t.tags_.elems with
  | nil => exact absurd hl h
  | cons x it =>
    simp only [Option.some.injEq]
    exact print_etiquetes_loop_eq x it

/-- Witness for C7: a task with the tags "a" and "b" is rendered "#a #b". -/
theorem C7_print_etiquetes_format_witness :
    (((Tasca.of_titol []).add_etiqueta ['b']).add_etiqueta ['a']).tags_.elems.Nodup ∧
    (((Tasca.of_titol []).add_etiqueta ['b']).add_etiqueta ['a']).print_etiquetes
      = some "#a #b".toList :=
  C7_print_etiquetes_format (((Tasca.of_titol []).add_etiqueta ['b']).add_etiqueta ['a'])
    (by decide)

/-- C8: tags have set semantics. Adding a tag the task already has leaves the task (title
and tags) unchanged; removing a tag the task does not have leaves it unchanged; adding a
tag twice, or removing it twice, gives the same task as doing it once. -/
theorem C8_etiqueta_set_semantics (t : Tasca) (e : Str) :
    (e ∈ t.tags_.elems → t.add_etiqueta e = t) ∧
    (e ∉ t.tags_.elems → t.del_etiqueta e = t) ∧
    (t.add_etiqueta e).add_etiqueta e = t.add_etiqueta e ∧
    (t.del_etiqueta e).del_etiqueta e = t.del_etiqueta e := by
  obtain ⟨title, tags, asc⟩ := t
  refine ⟨?_, ?_, ?_, ?_⟩
  · intro he
    simp only [Tasca.add_etiqueta, Tasca.mk.injEq, StrSet.mk.injEq, true_and]
    exact set_insert_of_mem asc he
  · intro he
    simp only [Tasca.del_etiqueta, Tasca.mk.injEq, StrSet.mk.injEq, true_and]
    exact set_erase_of_not_mem he
  · simp only [Tasca.add_etiqueta, Tasca.mk.injEq, StrSet.mk.injEq, true_and]
    exact set_insert_of_mem (set_insert_ascending e asc) (mem_set_insert_self e tags)
  · simp only [Tasca.del_etiqueta, Tasca.mk.injEq, StrSet.mk.injEq, true_and]
    exact set_erase_of_not_mem (not_mem_set_erase_self e asc)

/-- Witness for C8: a task tagged "a", to which "a" is added again and from which the
absent tag "b" is removed. -/
theorem C8_etiqueta_set_semantics_witness :
    ((Tasca.of_titol ['t']).add_etiqueta ['a']).add_etiqueta ['a']
      = (Tasca.of_titol ['t']).add_etiqueta ['a'] ∧
    ((Tasca.of_titol ['t']).add_etiqueta ['a']).del_etiqueta ['b']
      = (Tasca.of_titol ['t']).add_etiqueta ['a'] :=
  ⟨(C8_etiqueta_set_semantics ((Tasca.of_titol ['t']).add_etiqueta ['a']) ['a']).1
      (by decide),
    (C8_etiqueta_set_semantics ((Tasca.of_titol ['t']).add_etiqueta ['a']) ['b']).2.1
      (by decide)⟩

/-! ### The merge engine -/

theorem ordre_instant_irrefl (a : Data) : ordre_instant a a = false := by
  rw [← Bool.not_eq_true, ordre_instant_iff]; omega

theorem ordre_instant_trans {a b c : Data} (h1 : ordre_instant a b = true)
    (h2 : ordre_instant b c = true) : ordre_instant a c = true := by
  rw [ordre_instant_iff] at h1 h2 ⊢; omega

theorem ordre_instant_total {a b : Data} (h1 : ordre_instant a b = false)
    (h2 : ordre_instant b a = false) : a = b := by
  rw [← Bool.not_eq_true, ordre_instant_iff] at h1 h2
  obtain ⟨⟨d1, m1, a1⟩, ⟨h1', n1⟩⟩ := a
  obtain ⟨⟨d2, m2, a2⟩, ⟨h2', n2⟩⟩ := b
  simp only [Data.mk.injEq, Dia.mk.injEq, Hora.mk.injEq]
  simp only at h1 h2
  omega

theorem ordre_instant_ne {a b : Data} (h : ordre_instant a b = true) : a ≠ b := by
  intro hab
  rw [hab, ordre_instant_irrefl] at h
  exact Bool.false_ne_true h

theorem AscendingInstants_nodup {l : List Data} (h : AscendingInstants l) : l.Nodup :=
  List.Pairwise.imp (fun hab => ordre_instant_ne hab) h

theorem mem_merge_and_scan (n : Nat) (r l : List Data) (hn : r.length + l.length ≤ n)
    (hr : AscendingInstants r) (hl : AscendingInstants l) (d : Data) :
    d ∈ merge_and_scan n r l ↔ d ∈ r ∧ d ∈ l := by
  unfold AscendingInstants at hr hl
  induction n generalizing r l with
  | zero =>
    have h1 : r = [] := List.length_eq_zero.mp (by omega)
    simp [merge_and_scan, h1]
  | succ n ih =>
    cases r with
    | nil => simp [merge_and_scan]
    | cons x r =>
      cases l with
      | nil => simp [merge_and_scan]
      | cons y l =>
        simp only [List.length_cons] at hn
        have hr' := List.pairwise_cons.mp hr
        have hl' := List.pairwise_cons.mp hl
        simp only [merge_and_scan]
        split_ifs with h1 h2
        · rw [ih r (y :: l) (by simp only [List.length_cons]; omega) hr'.2 hl]
          constructor
          · rintro ⟨ha, hb⟩
            exact ⟨List.mem_cons_of_mem _ ha, hb⟩
          · rintro ⟨ha, hb⟩
            refine ⟨?_, hb⟩
            rcases List.mem_cons.mp ha with ha | ha
            · exfalso
              rcases List.mem_cons.mp hb with hb | hb
              · exact ordre_instant_ne h1 (ha.symm.trans hb)
              · rw [ha] at hb
                exact ordre_instant_ne (ordre_instant_trans h1 (hl'.1 x hb)) rfl
            · exact ha
        · rw [ih (x :: r) l (by simp only [List.length_cons]; omega) hr hl'.2]
          constructor
          · rintro ⟨ha, hb⟩
            exact ⟨ha, List.mem_cons_of_mem _ hb⟩
          · rintro ⟨ha, hb⟩
            refine ⟨ha, ?_⟩
            rcases List.mem_cons.mp hb with hb | hb
            · exfalso
              rcases List.mem_cons.mp ha with ha | ha
              · exact ordre_instant_ne h2 (hb.symm.trans ha)
              · rw [hb] at ha
                exact ordre_instant_ne (ordre_instant_trans h2 (hr'.1 y ha)) rfl
            · exact hb
        · have hxy : x = y := ordre_instant_total (by simpa using h1) (by simpa using h2)
          subst hxy
          rw [List.mem_cons, ih r l (by omega) hr'.2 hl'.2]
          constructor
          · rintro (ha | ⟨ha, hb⟩)
            · simp [ha]
            · exact ⟨List.mem_cons_of_mem _ ha, List.mem_cons_of_mem _ hb⟩
          · rintro ⟨ha, hb⟩
            rcases List.mem_cons.mp ha with ha | ha
            · exact Or.inl ha
            · rcases List.mem_cons.mp hb with hb | hb
              · exact Or.inl hb
              · exact Or.inr ⟨ha, hb⟩

theorem mem_merge_or_scan (n : Nat) (r l : List Data) (hn : r.length + l.length ≤ n)
    (d : Data) :
    d ∈ merge_or_scan n r l ↔ d ∈ r ∨ d ∈ l := by
  induction n generalizing r l with
  | zero =>
    have h1 : r = [] := List.length_eq_zero.mp (by omega)
    have h2 : l = [] := List.length_eq_zero.mp (by omega)
    simp [merge_or_scan, h1, h2]
  | succ n ih =>
    cases r with
    | nil => simp [merge_or_scan]
    | cons x r =>
      cases l with
      | nil => simp [merge_or_scan]
      | cons y l =>
        simp only [List.length_cons] at hn
        simp only [merge_or_scan]
        split_ifs with h1 h2
        · rw [List.mem_cons, ih r (y :: l) (by simp only [List.length_cons]; omega)]
          simp only [List.mem_cons]
          tauto
        · rw [List.mem_cons, ih (x :: r) l (by simp only [List.length_cons]; omega)]
          simp only [List.mem_cons]
          tauto
        · have hxy : x = y := ordre_instant_total (by simpa using h1) (by simpa using h2)
          subst hxy
          rw [List.mem_cons, ih r l (by omega)]
          simp only [List.mem_cons]
          tauto

theorem merge_and_scan_ascending (n : Nat) (r l : List Data) (hn : r.length + l.length ≤ n)
    (hr : AscendingInstants r) (hl : AscendingInstants l) :
    AscendingInstants (merge_and_scan n r l) := by
  induction n generalizing r l with
  | zero => exact List.Pairwise.nil
  | succ n ih =>
    cases r with
    | nil => exact List.Pairwise.nil
    | cons x r =>
      cases l with
      | nil => exact List.Pairwise.nil
      | cons y l =>
        simp only [List.length_cons] at hn
        have hr' := List.pairwise_cons.mp hr
        have hl' := List.pairwise_cons.mp hl
        simp only [merge_and_scan]
        split_ifs with h1 h2
        · exact ih r (y :: l) (by simp only [List.length_cons]; omega) hr'.2 hl
        · exact ih (x :: r) l (by simp only [List.length_cons]; omega) hr hl'.2
        · refine List.pairwise_cons.mpr ⟨?_, ih r l (by omega) hr'.2 hl'.2⟩
          intro d hd
          exact hl'.1 d ((mem_merge_and_scan n r l (by omega) hr'.2 hl'.2 d).mp hd).2

theorem merge_or_scan_ascending (n : Nat) (r l : List Data) (hn : r.length + l.length ≤ n)
    (hr : AscendingInstants r) (hl : AscendingInstants l) :
    AscendingInstants (merge_or_scan n r l) := by
  induction n generalizing r l with
  | zero => exact List.Pairwise.nil
  | succ n ih =>
    cases r with
    | nil => simpa [merge_or_scan] using hl
    | cons x r =>
      cases l with
      | nil => simpa [merge_or_scan] using hr
      | cons y l =>
        simp only [List.length_cons] at hn
        have hr' := List.pairwise_cons.mp hr
        have hl' := List.pairwise_cons.mp hl
        simp only [merge_or_scan]
        split_ifs with h1 h2
        · refine List.pairwise_cons.mpr
            ⟨?_, ih r (y :: l) (by simp only [List.length_cons]; omega) hr'.2 hl⟩
          intro d hd
          rcases (mem_merge_or_scan n r (y :: l)
            (by simp only [List.length_cons]; omega) d).mp hd with hd | hd
          · exact hr'.1 d hd
          · rcases List.mem_cons.mp hd with hd | hd
            · rw [hd]; exact h1
            · exact ordre_instant_trans h1 (hl'.1 d hd)
        · refine List.pairwise_cons.mpr
            ⟨?_, ih (x :: r) l (by simp only [List.length_cons]; omega) hr hl'.2⟩
          intro d hd
          rcases (mem_merge_or_scan n (x :: r) l
            (by simp only [List.length_cons]; omega) d).mp hd with hd | hd
          · rcases List.mem_cons.mp hd with hd | hd
            · rw [hd]; exact h2
            · exact ordre_instant_trans h2 (hr'.1 d hd)
          · exact hl'.1 d hd
        · have hxy : x = y := ordre_instant_total (by simpa using h1) (by simpa using h2)
          subst hxy
          refine List.pairwise_cons.mpr ⟨?_, ih r l (by omega) hr'.2 hl'.2⟩
          intro d hd
          rcases (mem_merge_or_scan n r l (by omega) d).mp hd with hd | hd
          · exact hr'.1 d hd
          · exact hl'.1 d hd

theorem mem_merge_and {r l : List Data} (hr : AscendingInstants r) (hl : AscendingInstants l)
    (d : Data) : d ∈ merge_and r l ↔ d ∈ r ∧ d ∈ l :=
  mem_merge_and_scan _ r l (Nat.le_refl _) hr hl d

theorem mem_merge_or (r l : List Data) (d : Data) : d ∈ merge_or r l ↔ d ∈ r ∨ d ∈ l :=
  mem_merge_or_scan _ r l (Nat.le_refl _) d

theorem merge_and_ascending {r l : List Data} (hr : AscendingInstants r)
    (hl : AscendingInstants l) : AscendingInstants (merge_and r l) :=
  merge_and_scan_ascending _ r l (Nat.le_refl _) hr hl

theorem merge_or_ascending {r l : List Data} (hr : AscendingInstants r)
    (hl : AscendingInstants l) : AscendingInstants (merge_or r l) :=
  merge_or_scan_ascending _ r l (Nat.le_refl _) hr hl

/-- C10: for two ascending, duplicate-free sequences of instants `r = [in1, in2)` and `l`,
after `merge_and` the list holds an instant iff it was in both, after `merge_or` it holds
an instant iff it was in either, each such instant exactly once; both results are in
ascending instant order; and when one input is empty the intersection is empty and the
union is the other input. -/
theorem C10_merge_and_or (r l : List Data)
    (hr : AscendingInstants r) (hl : AscendingInstants l) :
    (∀ d, d ∈ merge_and r l ↔ d ∈ r ∧ d ∈ l) ∧
    (∀ d, d ∈ merge_or r l ↔ d ∈ r ∨ d ∈ l) ∧
    (∀ d, d ∈ r ∨ d ∈ l → (merge_or r l).count d = 1) ∧
    AscendingInstants (merge_and r l) ∧
    AscendingInstants (merge_or r l) ∧
    merge_and [] l = [] ∧ merge_and r [] = [] ∧
    merge_or [] l = l ∧ merge_or r [] = r := by
  refine ⟨mem_merge_and hr hl, mem_merge_or r l, ?_, merge_and_ascending hr hl,
    merge_or_ascending hr hl, ?_, ?_, ?_, ?_⟩
  · intro d hd
    exact List.count_eq_one_of_mem (AscendingInstants_nodup (merge_or_ascending hr hl))
      ((mem_merge_or r l d).mpr hd)
  · cases l <;> rfl
  · cases r <;> rfl
  · cases l <;> rfl
  · cases r <;> rfl

/-- Witness for C10: the sequences 09:00, 10:00 and 10:00, 11:00 of one day. -/
theorem C10_merge_and_or_witness :
    merge_and [⟨⟨10, 5, 24⟩, ⟨9, 0⟩⟩, ⟨⟨10, 5, 24⟩, ⟨10, 0⟩⟩]
        [⟨⟨10, 5, 24⟩, ⟨10, 0⟩⟩, ⟨⟨10, 5, 24⟩, ⟨11, 0⟩⟩]
      = [⟨⟨10, 5, 24⟩, ⟨10, 0⟩⟩] ∧
    merge_or [⟨⟨10, 5, 24⟩, ⟨9, 0⟩⟩, ⟨⟨10, 5, 24⟩, ⟨10, 0⟩⟩]
        [⟨⟨10, 5, 24⟩, ⟨10, 0⟩⟩, ⟨⟨10, 5, 24⟩, ⟨11, 0⟩⟩]
      = [⟨⟨10, 5, 24⟩, ⟨9, 0⟩⟩, ⟨⟨10, 5, 24⟩, ⟨10, 0⟩⟩, ⟨⟨10, 5, 24⟩, ⟨11, 0⟩⟩] ∧
    AscendingInstants (merge_or [⟨⟨10, 5, 24⟩, ⟨9, 0⟩⟩, ⟨⟨10, 5, 24⟩, ⟨10, 0⟩⟩]
        [⟨⟨10, 5, 24⟩, ⟨10, 0⟩⟩, ⟨⟨10, 5, 24⟩, ⟨11, 0⟩⟩]) :=
  ⟨by decide, by decide,
    (C10_merge_and_or [⟨⟨10, 5, 24⟩, ⟨9, 0⟩⟩, ⟨⟨10, 5, 24⟩, ⟨10, 0⟩⟩]
      [⟨⟨10, 5, 24⟩, ⟨10, 0⟩⟩, ⟨⟨10, 5, 24⟩, ⟨11, 0⟩⟩] (by decide) (by decide)).2.2.2.2.1⟩

/-! ### Queries -/

theorem tasks_key_unique (l : List (Data × Tasca)) (h : AscendingInstants (l.map Prod.fst))
    {d : Data} {t1 t2 : Tasca} (h1 : (d, t1) ∈ l) (h2 : (d, t2) ∈ l) : t1 = t2 := by
  unfold AscendingInstants at h
  induction l with
  | nil => simp at h1
  | cons p rest ih =>
    rw [List.map_cons, List.pairwise_cons] at h
    have hrest : ∀ t, (d, t) ∈ rest → d ≠ p.1 := by
      intro t ht hd
      have hk : d ∈ rest.map Prod.fst := List.mem_map.mpr ⟨(d, t), ht, rfl⟩
      have := h.1 d hk
      rw [hd, ordre_instant_irrefl] at this
      exact Bool.false_ne_true this
    rcases List.mem_cons.mp h1 with e1 | e1
    · rcases List.mem_cons.mp h2 with e2 | e2
      · have := e1.trans e2.symm
        exact (Prod.mk.inj this).2
      · exact absurd (by rw [← e1]) (hrest t2 e2)
    · rcases List.mem_cons.mp h2 with e2 | e2
      · exact absurd (by rw [← e2]) (hrest t1 e1)
      · exact ih h.2 e1 e2

theorem tag_set_find_mem (l : List (Str × List Data)) (tag : Str) {d : Data}
    (h : d ∈ tag_set_find l tag) : (tag, tag_set_find l tag) ∈ l := by
  induction l with
  | nil => simp [tag_set_find] at h
  | cons p rest ih =>
    obtain ⟨k, s⟩ := p
    simp only [tag_set_find] at h ⊢
    split_ifs at h ⊢ with hk
    · rw [hk]; exact List.mem_cons_self _ _
    · exact List.mem_cons_of_mem _ (ih h)

theorem tag_set_find_of_mem (l : List (Str × List Data))
    (h : (l.map Prod.fst).Pairwise (fun k1 k2 => k1 ≠ k2)) {k : Str} {s : List Data}
    (hm : (k, s) ∈ l) : tag_set_find l k = s := by
  induction l with
  | nil => simp at hm
  | cons p rest ih =>
    obtain ⟨k', s'⟩ := p
    rw [List.map_cons, List.pairwise_cons] at h
    simp only [tag_set_find]
    rcases List.mem_cons.mp hm with e | e
    · have e1 := (Prod.mk.inj e).1
      have e2 := (Prod.mk.inj e).2
      rw [if_pos e1.symm, e2]
    · have hne : k' ≠ k := h.1 k (List.mem_map.mpr ⟨(k, s), e, rfl⟩)
      rw [if_neg hne]
      exact ih h.2 e

theorem wf_tag_set_find_iff {a : Agenda} (hwf : a.wf) (tag : Str) (d : Data) :
    d ∈ tag_set_find a.tags_ tag ↔ ∃ t, (d, t) ∈ a.tasks_ ∧ tag ∈ t.tags_.elems := by
  obtain ⟨_, _, _, h4, h5⟩ := hwf
  constructor
  · intro hd
    obtain ⟨q, hq, hqd, hqt⟩ := h4 _ (tag_set_find_mem a.tags_ tag hd) d hd
    refine ⟨q.2, ?_, hqt⟩
    rw [← hqd]
    exact hq
  · rintro ⟨t, ht, htag⟩
    exact h5 (d, t) ht tag htag

theorem wf_tag_set_find_ascending {a : Agenda} (hwf : a.wf) (tag : Str) :
    AscendingInstants (tag_set_find a.tags_ tag) := by
  obtain ⟨_, _, h3, _, _⟩ := hwf
  cases hl : tag_set_find a.tags_ tag with
  | nil => exact List.Pairwise.nil
  | cons d rest =>
    have hd : d ∈ tag_set_find a.tags_ tag := by rw [hl]; exact List.mem_cons_self _ _
    have := h3 _ (tag_set_find_mem a.tags_ tag hd)
    rw [hl] at this
    exact this

theorem mem_universal (a : Agenda) (dia1 dia2 : Dia) (d : Data) :
    d ∈ a.universal dia1 dia2 ↔ a.finestra dia1 dia2 d = true ∧ ∃ t, (d, t) ∈ a.tasks_ := by
  unfold Agenda.universal
  rw [List.mem_filter, List.mem_map]
  constructor
  · rintro ⟨⟨q, hq, hqd⟩, hf⟩
    refine ⟨hf, q.2, ?_⟩
    rw [← hqd]
    exact hq
  · rintro ⟨hf, t, ht⟩
    exact ⟨⟨(d, t), ht, rfl⟩, hf⟩

theorem mem_tag_instants {a : Agenda} (hwf : a.wf) (dia1 dia2 : Dia) (tag : Str) (d : Data) :
    d ∈ a.tag_instants dia1 dia2 tag ↔
      a.finestra dia1 dia2 d = true ∧ ∃ t, (d, t) ∈ a.tasks_ ∧ tag ∈ t.tags_.elems := by
  unfold Agenda.tag_instants
  rw [List.mem_filter, wf_tag_set_find_iff hwf, and_comm]

/-- The evaluation of an expression yields, in ascending order, exactly the instants of
the window whose task satisfies the expression. -/
theorem exp_parentitzada_spec {a : Agenda} (hwf : a.wf) (dia1 dia2 : Dia) (e : Expr) :
    AscendingInstants (a.exp_parentitzada dia1 dia2 e) ∧
    ∀ d, d ∈ a.exp_parentitzada dia1 dia2 e ↔
      a.finestra dia1 dia2 d = true ∧ ∃ t, (d, t) ∈ a.tasks_ ∧ e.sat t.tags_.elems = true := by
  induction e with
  | tag name =>
    refine ⟨List.Pairwise.filter _ (wf_tag_set_find_ascending hwf name), fun d => ?_⟩
    simp only [Agenda.exp_parentitzada, Expr.sat, decide_eq_true_eq]
    exact mem_tag_instants hwf dia1 dia2 name d
  | not name =>
    refine ⟨List.Pairwise.filter _ (List.Pairwise.filter _ hwf.1), fun d => ?_⟩
    simp only [Agenda.exp_parentitzada, Expr.sat, decide_eq_true_eq, List.mem_filter,
      mem_universal, mem_tag_instants hwf]
    constructor
    · rintro ⟨⟨hf, t, ht⟩, hn⟩
      refine ⟨hf, t, ht, fun htag => hn ⟨hf, t, ht, htag⟩⟩
    · rintro ⟨hf, t, ht, hn⟩
      refine ⟨⟨hf, t, ht⟩, ?_⟩
      rintro ⟨_, t', ht', htag⟩
      rw [tasks_key_unique a.tasks_ hwf.1 ht' ht] at htag
      exact hn htag
  | and e1 e2 ih1 ih2 =>
    refine ⟨merge_and_ascending ih2.1 ih1.1, fun d => ?_⟩
    simp only [Agenda.exp_parentitzada, Expr.sat, Bool.and_eq_true]
    rw [mem_merge_and ih2.1 ih1.1, ih1.2, ih2.2]
    constructor
    · rintro ⟨⟨hf, t2, ht2, hs2⟩, ⟨_, t1, ht1, hs1⟩⟩
      rw [tasks_key_unique a.tasks_ hwf.1 ht2 ht1] at hs2
      exact ⟨hf, t1, ht1, hs1, hs2⟩
    · rintro ⟨hf, t, ht, hs1, hs2⟩
      exact ⟨⟨hf, t, ht, hs2⟩, ⟨hf, t, ht, hs1⟩⟩
  | or e1 e2 ih1 ih2 =>
    refine ⟨merge_or_ascending ih2.1 ih1.1, fun d => ?_⟩
    simp only [Agenda.exp_parentitzada, Expr.sat, Bool.or_eq_true]
    rw [mem_merge_or, ih1.2, ih2.2]
    constructor
    · rintro (⟨hf, t, ht, hs⟩ | ⟨hf, t, ht, hs⟩)
      · exact ⟨hf, t, ht, Or.inr hs⟩
      · exact ⟨hf, t, ht, Or.inl hs⟩
    · rintro ⟨hf, t, ht, hs | hs⟩
      · exact Or.inr ⟨hf, t, ht, hs⟩
      · exact Or.inl ⟨hf, t, ht, hs⟩
  | group e ih =>
    simpa only [Agenda.exp_parentitzada, Expr.sat] using ih

/-! ### Tasks: the empty tag set, the frame of the mutators, the order of the tags -/

/-- C13 (evaluation at the failing input): for a task without tags, freshly constructed or
emptied by `del_etiquetes`, `Tasca::print_etiquetes` executes `++it` on an iterator that is
already `end()`: the run is undefined (`none`) instead of writing nothing. -/
theorem C13_print_etiquetes_empty_undefined :
    (Tasca.of_titol ['t']).print_etiquetes = none ∧
    ((Tasca.of_titol ['t']).add_etiqueta ['a']).del_etiquetes.print_etiquetes = none := by
  constructor
  · rfl
  · rfl

/-- C14: each mutator of `Tasca` changes only its own field. `set_titol(s)` makes the title
`s`, so that `print_titol` writes exactly `s`, and leaves the tag set as it was;
`add_etiqueta`, `del_etiqueta` and `del_etiquetes` leave the title as it was; after
`del_etiquetes` the tag set is empty. -/
theorem C14_mutators_frame (t : Tasca) (s : Str) :
    (t.set_titol s).title_ = s ∧
    (t.set_titol s).print_titol = s ∧
    (t.set_titol s).tags_ = t.tags_ ∧
    (t.add_etiqueta s).title_ = t.title_ ∧
    (t.del_etiqueta s).title_ = t.title_ ∧
    t.del_etiquetes.title_ = t.title_ ∧
    t.del_etiquetes.tags_.elems = [] := by
  obtain ⟨title, tags⟩ := t
  refine ⟨?_, ?_, ?_, ?_, ?_, ?_, ?_⟩
  · simp only [Tasca.set_titol]
  · simp only [Tasca.set_titol, Tasca.print_titol]
  · simp only [Tasca.set_titol]
  · simp only [Tasca.add_etiqueta]
  · simp only [Tasca.del_etiqueta]
  · simp only [Tasca.del_etiquetes]
  · simp only [Tasca.del_etiquetes]

theorem mem_set_insert_of_mem {e y : Str} {l : List Str} (h : y ∈ l) : y ∈ set_insert e l := by
  induction l with
  | nil => simp at h
  | cons x xs ih =>
    simp only [set_insert]
    split_ifs
    · exact List.mem_cons_of_mem _ h
    · rcases List.mem_cons.mp h with h | h
      · rw [h]; exact List.mem_cons_self _ _
      · exact List.mem_cons_of_mem _ (ih h)
    · exact h

theorem mem_set_insert_iff (e y : Str) (l : List Str) :
    y ∈ set_insert e l ↔ y = e ∨ y ∈ l := by
  constructor
  · exact mem_set_insert
  · rintro (h | h)
    · rw [h]; exact mem_set_insert_self e l
    · exact mem_set_insert_of_mem h

/-- Two strictly ascending enumerations with the same elements are the same list. -/
theorem Ascending_ext {l1 l2 : List Str} (h1 : Ascending l1) (h2 : Ascending l2)
    (h : ∀ e, e ∈ l1 ↔ e ∈ l2) : l1 = l2 := by
  unfold Ascending at h1 h2
  induction l1 generalizing l2 with
  | nil =>
    cases l2 with
    | nil => rfl
    | cons y ys => exact absurd ((h y).mpr (List.mem_cons_self _ _)) (List.not_mem_nil _)
  | cons x xs ih =>
    cases l2 with
    | nil => exact absurd ((h x).mp (List.mem_cons_self _ _)) (List.not_mem_nil _)
    | cons y ys =>
      rw [List.pairwise_cons] at h1 h2
      have hxy : x = y := by
        rcases List.mem_cons.mp ((h x).mp (List.mem_cons_self _ _)) with hx | hx
        · exact hx
        · rcases List.mem_cons.mp ((h y).mpr (List.mem_cons_self _ _)) with hy | hy
          · exact hy.symm
          · exact absurd (string_lt_trans (h1.1 y hy) (h2.1 x hx))
              (by rw [string_lt_irrefl]; exact Bool.false_ne_true)
      subst hxy
      have htail : ∀ e, e ∈ xs ↔ e ∈ ys := by
        intro e
        constructor
        · intro he
          rcases List.mem_cons.mp ((h e).mp (List.mem_cons_of_mem _ he)) with hx | hx
          · exact absurd hx.symm (string_lt_ne (h1.1 e he))
          · exact hx
        · intro he
          rcases List.mem_cons.mp ((h e).mpr (List.mem_cons_of_mem _ he)) with hx | hx
          · exact absurd hx.symm (string_lt_ne (h2.1 e he))
          · exact hx
      rw [ih h1.2 h2.2 htail]

theorem set_insert_comm (a b : Str) {l : List Str} (h : Ascending l) :
    set_insert b (set_insert a l) = set_insert a (set_insert b l) := by
  apply Ascending_ext (set_insert_ascending b (set_insert_ascending a h))
    (set_insert_ascending a (set_insert_ascending b h))
  intro e
  simp only [mem_set_insert_iff]
  tauto

theorem set_insert_ne_nil (e : Str) (l : List Str) : set_insert e l ≠ [] := by
  intro h
  have := mem_set_insert_self e l
  rw [h] at this
  exact List.not_mem_nil _ this

theorem print_etiquetes_of_ne_nil (t : Tasca) (h : t.tags_.elems ≠ []) :
    t.print_etiquetes
      = some (List.intercalate [' '] (t.tags_.elems.map (fun e => '#' :: e))) := by
  unfold Tasca.print_etiquetes
  cases hl : t.tags_.elems with
  | nil => exact absurd hl h
  | cons x it =>
    simp only [Option.some.injEq]
    exact print_etiquetes_loop_eq x it

theorem print_etiquetes_congr (t1 t2 : Tasca) (h : t1.tags_.elems = t2.tags_.elems) :
    t1.print_etiquetes = t2.print_etiquetes := by
  unfold Tasca.print_etiquetes
  rw [h]

/-- C16: the rendering of the tags depends only on the set of tags. Adding `a` then `b`
yields the same task as adding `b` then `a`; the enumeration of the tags that
`print_etiquetes` follows is strictly ascending in the order of `std::string`, and for the
task so obtained the text written is that enumeration, each tag after '#', separated by
single spaces; and two tasks with the same tags are rendered by the same text. -/
theorem C16_tags_order_independent (t : Tasca) (a b : Str) :
    (t.add_etiqueta a).add_etiqueta b = (t.add_etiqueta b).add_etiqueta a ∧
    Ascending ((t.add_etiqueta a).add_etiqueta b).tags_.elems ∧
    ((t.add_etiqueta a).add_etiqueta b).print_etiquetes
      = some (List.intercalate [' ']
          (((t.add_etiqueta a).add_etiqueta b).tags_.elems.map (fun e => '#' :: e))) ∧
    (∀ t1 t2 : Tasca, (∀ e, e ∈ t1.tags_.elems ↔ e ∈ t2.tags_.elems) →
      t1.print_etiquetes = t2.print_etiquetes) := by
  refine ⟨?_, ((t.add_etiqueta a).add_etiqueta b).tags_.asc, ?_, ?_⟩
  · obtain ⟨title, tags, asc⟩ := t
    simp only [Tasca.add_etiqueta, Tasca.mk.injEq, StrSet.mk.injEq, true_and]
    exact set_insert_comm a b asc
  · apply print_etiquetes_of_ne_nil
    exact set_insert_ne_nil b _
  · intro t1 t2 h
    exact print_etiquetes_congr t1 t2 (Ascending_ext t1.tags_.asc t2.tags_.asc h)

/-- Witness for C16: the tags "b" then "a", and "a" then "b", on tasks with different
titles, are both rendered "#a #b". -/
theorem C16_tags_order_independent_witness :
    (((Tasca.of_titol ['x']).add_etiqueta ['b']).add_etiqueta ['a']).print_etiquetes
      = some "#a #b".toList ∧
    (((Tasca.of_titol ['x']).add_etiqueta ['b']).add_etiqueta ['a']).print_etiquetes
      = (((Tasca.of_titol ['y']).add_etiqueta ['a']).add_etiqueta ['b']).print_etiquetes :=
  ⟨by decide,
    (C16_tags_order_independent (Tasca.of_titol ['x']) ['b'] ['a']).2.2.2
      (((Tasca.of_titol ['x']).add_etiqueta ['b']).add_etiqueta ['a'])
      (((Tasca.of_titol ['y']).add_etiqueta ['a']).add_etiqueta ['b'])
      (by intro e; simp [Tasca.add_etiqueta, Tasca.of_titol, set_insert, string_lt])⟩

/-! ### When `Dia(string)` fails -/

theorem stoi_rest_eq_skip_sign (body : List Char) :
    (match body with
      | '-' :: r => r
      | '+' :: r => r
      | r => r) = skip_sign body := by
  cases body with
  | nil => rfl
  | cons c r =>
    by_cases h1 : c = '-'
    · subst h1; rfl
    · by_cases h2 : c = '+'
      · subst h2; rfl
      · have h3 : ¬(c = '+' ∨ c = '-') := by tauto
        simp only [skip_sign, if_neg h3]
        split
        · rename_i heq; exact absurd (List.cons.inj heq).1 h1
        · rename_i heq; exact absurd (List.cons.inj heq).1 h2
        · rfl

theorem takeWhile_isdigit_eq_nil (rest : Str) :
    rest.takeWhile isdigit = [] ↔
      (match rest with
        | [] => false
        | c :: _ => isdigit c) = false := by
  cases rest with
  | nil => simp
  | cons c r =>
    cases hc : isdigit c <;> simp [List.takeWhile, hc]

theorem digitsVal_le_99 (ds : Str) (hlen : ds.length ≤ 2) (hd : ∀ c ∈ ds, isdigit c = true) :
    digitsVal ds ≤ 99 := by
  have hb : ∀ c ∈ ds, c.toNat ≤ 57 := by
    intro c hc
    have := hd c hc
    unfold isdigit at this
    simp only [Bool.and_eq_true, decide_eq_true_eq] at this
    exact this.2
  match ds, hlen, hb with
  | [], _, _ => simp [digitsVal]
  | [a], _, hb =>
    have ha := hb a (by simp)
    simp only [digitsVal, List.foldl]
    omega
  | [a, b], _, hb =>
    have ha := hb a (by simp)
    have hb' := hb b (by simp)
    simp only [digitsVal, List.foldl]
    omega
  | _ :: _ :: _ :: _, hlen, _ => simp at hlen

theorem skip_sign_length_le (u : Str) : (skip_sign u).length ≤ u.length := by
  cases u with
  | nil => simp [skip_sign]
  | cons c r =>
    simp only [skip_sign]
    split_ifs <;> simp

/-- On a field of at most two characters `stoi` throws exactly when the field does not
begin, after white space and an optional sign, with a digit: two digits never overflow. -/
theorem stoi_eq_none_iff (u : Str) (hu : u.length ≤ 2) :
    stoi u = none ↔ spec_begins_with_digit u = false := by
  have hrest : (skip_sign (u.dropWhile isspace)).length ≤ 2 :=
    le_trans (skip_sign_length_le _)
      (le_trans (List.dropWhile_sublist isspace).length_le hu)
  have hlen : ((skip_sign (u.dropWhile isspace)).takeWhile isdigit).length ≤ 2 :=
    le_trans (List.takeWhile_sublist isdigit).length_le hrest
  have hdig : ∀ c ∈ (skip_sign (u.dropWhile isspace)).takeWhile isdigit, isdigit c = true :=
    fun c hc => List.mem_takeWhile_imp hc
  have hval := digitsVal_le_99 _ hlen hdig
  unfold stoi spec_begins_with_digit
  simp only [stoi_rest_eq_skip_sign]
  rw [← takeWhile_isdigit_eq_nil]
  by_cases hds : (skip_sign (u.dropWhile isspace)).takeWhile isdigit = []
  · simp only [hds, if_true]
  · simp only [hds, if_false, iff_false]
    split_ifs with h2 h3 h3
    · omega
    · exact not_false
    · omega
    · exact not_false

theorem field_eq_none_iff (s : Str) (pos : Nat) :
    (substr s pos 2).bind stoi = none ↔
      s.length < pos ∨ spec_begins_with_digit ((s.drop pos).take 2) = false := by
  unfold substr
  by_cases h : pos > s.length
  · simp [h]
  · have hlen : ((s.drop pos).take 2).length ≤ 2 := by
      rw [List.length_take]; exact Nat.min_le_left _ _
    rw [if_neg h, Option.some_bind, stoi_eq_none_iff _ hlen]
    constructor
    · exact Or.inr
    · rintro (h' | h')
      · exact absurd h' h
      · exact h'

theorem Dia_of_string_eq_none_iff (s : Str) :
    Dia.of_string s = none ↔
      (substr s 0 2).bind stoi = none ∨ (substr s 3 2).bind stoi = none ∨
      (substr s 6 2).bind stoi = none := by
  unfold Dia.of_string
  cases h1 : (substr s 0 2).bind stoi <;> cases h2 : (substr s 3 2).bind stoi <;>
    cases h3 : (substr s 6 2).bind stoi <;> simp [h1, h2, h3]

theorem Dia_of_string_fails_iff_aux (s : Str) :
    Dia.of_string s = none ↔
      s.length < 7 ∨
      spec_begins_with_digit (s.take 2) = false ∨
      spec_begins_with_digit ((s.drop 3).take 2) = false ∨
      spec_begins_with_digit ((s.drop 6).take 2) = false := by
  rw [Dia_of_string_eq_none_iff, field_eq_none_iff, field_eq_none_iff, field_eq_none_iff]
  simp only [List.drop_zero, Nat.not_lt_zero, false_or]
  constructor
  · rintro (h | (h | h) | (h | h))
    · exact Or.inr (Or.inl h)
    · exact Or.inl (by omega)
    · exact Or.inr (Or.inr (Or.inl h))
    · exact Or.inl (by omega)
    · exact Or.inr (Or.inr (Or.inr h))
  · rintro (h | h | h | h)
    · right; right
      by_cases h6 : s.length < 6
      · exact Or.inl h6
      · right
        have hd : s.drop 6 = [] := List.drop_eq_nil_of_le (by omega)
        rw [hd]
        rfl
    · exact Or.inl h
    · exact Or.inr (Or.inl (Or.inr h))
    · exact Or.inr (Or.inr (Or.inr h))

/-- C15: `Dia(string s)` fails (throws) if and only if `s` has fewer than 7 characters or
one of the three fields read at the offsets 0, 3 and 6 (at most two characters each) does
not begin, after optional white space and an optional sign, with a decimal digit. The
condition looks at nothing else: not at the characters at the offsets 2 and 5, not at what
follows the offset 7, not at the values of the fields; whenever it does not hold the
construction succeeds. -/
theorem C15_Dia_of_string_fails_iff (s : Str) :
    (Dia.of_string s = none ↔
      s.length < 7 ∨
      spec_begins_with_digit (s.take 2) = false ∨
      spec_begins_with_digit ((s.drop 3).take 2) = false ∨
      spec_begins_with_digit ((s.drop 6).take 2) = false) ∧
    (7 ≤ s.length ∧
      spec_begins_with_digit (s.take 2) = true ∧
      spec_begins_with_digit ((s.drop 3).take 2) = true ∧
      spec_begins_with_digit ((s.drop 6).take 2) = true ↔
      ∃ d, Dia.of_string s = some d) := by
  have key := Dia_of_string_fails_iff_aux s
  refine ⟨key, ?_⟩
  rw [← Option.isSome_iff_exists, ← Option.ne_none_iff_isSome, Ne, key]
  simp only [not_or, not_lt, Bool.not_eq_false]

/-! ### The primary store keeps one task per instant -/

theorem store_find_isSome_of_mem {l : List (Data × Tasca)} {d : Data} {t : Tasca}
    (h : (d, t) ∈ l) : (store_find l d).isSome = true := by
  induction l with
  | nil => simp at h
  | cons p rest ih =>
    obtain ⟨k, v⟩ := p
    simp only [store_find]
    split_ifs with hk
    · rfl
    · rcases List.mem_cons.mp h with e | e
      · exact absurd (Prod.mk.inj e).1.symm hk
      · exact ih e

theorem mem_keys_store_insert {d k : Data} {t : Tasca} {l : List (Data × Tasca)}
    (h : k ∈ (store_insert d t l).map Prod.fst) : k = d ∨ k ∈ l.map Prod.fst := by
  induction l with
  | nil => simp [store_insert] at h; exact Or.inl h
  | cons p rest ih =>
    obtain ⟨k', v⟩ := p
    simp only [store_insert] at h
    split_ifs at h
    · simp only [List.map_cons, List.mem_cons] at h ⊢
      exact h
    · simp only [List.map_cons, List.mem_cons] at h ⊢
      rcases h with h | h
      · exact Or.inr (Or.inl h)
      · rcases ih h with h | h
        · exact Or.inl h
        · exact Or.inr (Or.inr h)
    · exact Or.inr h

theorem store_insert_keys_ascending (d : Data) (t : Tasca) {l : List (Data × Tasca)}
    (h : AscendingInstants (l.map Prod.fst)) :
    AscendingInstants ((store_insert d t l).map Prod.fst) := by
  unfold AscendingInstants at *
  induction l with
  | nil => simp [store_insert]
  | cons p rest ih =>
    obtain ⟨k, v⟩ := p
    rw [List.map_cons, List.pairwise_cons] at h
    simp only [store_insert]
    split_ifs with h1 h2
    · simp only [List.map_cons]
      refine List.pairwise_cons.mpr ⟨?_, List.pairwise_cons.mpr h⟩
      intro y hy
      rcases List.mem_cons.mp hy with hy | hy
      · rw [hy]; exact h1
      · exact ordre_instant_trans h1 (h.1 y hy)
    · simp only [List.map_cons]
      refine List.pairwise_cons.mpr ⟨?_, ih h.2⟩
      intro y hy
      rcases mem_keys_store_insert hy with hy | hy
      · rw [hy]; exact h2
      · exact h.1 y hy
    · simp only [List.map_cons]
      exact List.pairwise_cons.mpr h

theorem store_erase_keys_sublist (d : Data) (l : List (Data × Tasca)) :
    ((store_erase d l).map Prod.fst).Sublist (l.map Prod.fst) := by
  induction l with
  | nil => exact List.Sublist.refl _
  | cons p rest ih =>
    obtain ⟨k, v⟩ := p
    simp only [store_erase]
    split_ifs
    · simp only [List.map_cons]
      exact List.sublist_cons_self _ _
    · simp only [List.map_cons]
      exact List.Sublist.cons₂ _ ih

theorem store_erase_keys_ascending (d : Data) {l : List (Data × Tasca)}
    (h : AscendingInstants (l.map Prod.fst)) :
    AscendingInstants ((store_erase d l).map Prod.fst) :=
  List.Pairwise.sublist (store_erase_keys_sublist d l) h

theorem store_update_keys (d : Data) (f : Tasca → Tasca) (l : List (Data × Tasca)) :
    (store_update d f l).map Prod.fst = l.map Prod.fst := by
  induction l with
  | nil => rfl
  | cons p rest ih =>
    obtain ⟨k, v⟩ := p
    simp only [store_update]
    split_ifs
    · rfl
    · simp only [List.map_cons, ih]

theorem set_data_keys_ascending (a : Agenda) (id : Int) (nova : Data)
    (h : AscendingInstants (a.tasks_.map Prod.fst)) :
    AscendingInstants ((a.set_data id nova).1.tasks_.map Prod.fst) := by
  unfold Agenda.set_data
  split
  · exact h
  · split_ifs
    · exact h
    · exact h
    · exact store_insert_keys_ascending _ _ (store_erase_keys_ascending _ h)

theorem consulta_tasks (a : Agenda) (dia1 dia2 : Dia) (expressio : Str) :
    (a.consulta dia1 dia2 expressio).tasks_ = a.tasks_ := by
  unfold Agenda.consulta
  split_ifs
  · rfl
  · split <;> rfl

/-- In every reachable state the keys of the primary store are strictly ascending. -/
theorem Reachable_keys_ascending {a : Agenda} (h : a.Reachable) :
    AscendingInstants (a.tasks_.map Prod.fst) := by
  induction h with
  | buida rellotge => exact List.Pairwise.nil
  | set_rellotge data _ ih =>
    unfold Agenda.set_rellotge
    split_ifs <;> exact ih
  | add_tasca data t _ ih =>
    unfold Agenda.add_tasca Agenda.p_add_tasca
    split_ifs
    · exact ih
    · exact ih
    · exact store_insert_keys_ascending _ _ ih
  | set_titol id titol _ ih =>
    unfold Agenda.set_titol
    split
    · exact ih
    · simp only [store_update_keys]; exact ih
  | set_dia id d _ ih =>
    unfold Agenda.set_dia
    split
    · exact ih
    · exact set_data_keys_ascending _ _ _ ih
  | set_hora id d _ ih =>
    unfold Agenda.set_hora
    split
    · exact ih
    · exact set_data_keys_ascending _ _ _ ih
  | set_data id d _ ih => exact set_data_keys_ascending _ _ _ ih
  | add_etiqueta id etiqueta _ ih =>
    unfold Agenda.add_etiqueta
    split
    · exact ih
    · simp only [store_update_keys]; exact ih
  | del_etiqueta id etiqueta _ ih =>
    unfold Agenda.del_etiqueta
    split
    · exact ih
    · simp only [store_update_keys]; exact ih
  | del_etiquetes id _ ih =>
    unfold Agenda.del_etiquetes
    split
    · exact ih
    · simp only [store_update_keys]; exact ih
  | del_tasca id _ ih =>
    unfold Agenda.del_tasca
    split
    · exact ih
    · exact store_erase_keys_ascending _ ih
  | consulta dia1 dia2 expressio _ ih =>
    rw [consulta_tasks]; exact ih
  | consulta_dia dia expressio _ ih =>
    unfold Agenda.consulta_dia
    rw [consulta_tasks]; exact ih
  | consulta_tot expressio _ ih =>
    unfold Agenda.consulta_tot
    split
    · rw [consulta_tasks]; exact ih
    · exact ih

/-- C11: `add_tasca(d, t)` returns false and leaves the task store, the tag index and the
menu as they were when `d` is not strictly later than the clock or when a task already
exists at `d`; consequently no reachable state of the agenda holds two tasks with the same
instant (the instants of the store have no repetition). -/
theorem C11_add_tasca_rejects (a : Agenda) (d : Data) (t : Tasca) :
    ((ordre_instant a.clock_ d = false ∨ ∃ t', (d, t') ∈ a.tasks_) →
      (a.add_tasca d t).2 = false ∧
      (a.add_tasca d t).1.tasks_ = a.tasks_ ∧
      (a.add_tasca d t).1.tags_ = a.tags_ ∧
      (a.add_tasca d t).1.menu_ = a.menu_) ∧
    (a.Reachable → (a.tasks_.map Prod.fst).Nodup) := by
  constructor
  · intro h
    have hres : a.add_tasca d t = (a, false) := by
      unfold Agenda.add_tasca Agenda.p_add_tasca Agenda.es_passat
      rcases h with h | ⟨t', ht'⟩
      · rw [h]
        rfl
      · rw [store_find_isSome_of_mem ht']
        simp only [if_true, ite_self]
    rw [hres]
    exact ⟨rfl, rfl, rfl, rfl⟩
  · intro h
    exact AscendingInstants_nodup (Reachable_keys_ascending h)

/-- Witness for C11: in the scenario of the specification a second task at 10.05.24 09:00
is refused; and the state reached from the empty agenda by two insertions at the same
instant holds no repeated instant. -/
theorem C11_add_tasca_rejects_witness :
    (escenari.add_tasca ⟨⟨10, 5, 24⟩, ⟨9, 0⟩⟩ (Tasca.of_titol ['z'])).2 = false ∧
    (((((Agenda.buida ⟨⟨1, 1, 24⟩, ⟨0, 0⟩⟩).add_tasca ⟨⟨10, 5, 24⟩, ⟨9, 0⟩⟩
        (Tasca.of_titol ['a'])).1.add_tasca ⟨⟨10, 5, 24⟩, ⟨9, 0⟩⟩
        (Tasca.of_titol ['b'])).1).tasks_.map Prod.fst).Nodup :=
  ⟨((C11_add_tasca_rejects escenari ⟨⟨10, 5, 24⟩, ⟨9, 0⟩⟩ (Tasca.of_titol ['z'])).1
      (Or.inr ⟨_, List.mem_cons_self _ _⟩)).1,
    (C11_add_tasca_rejects _ ⟨⟨10, 5, 24⟩, ⟨9, 0⟩⟩ (Tasca.of_titol ['z'])).2
      (Agenda.Reachable.add_tasca _ _
        (Agenda.Reachable.add_tasca _ _ (Agenda.Reachable.buida _)))⟩

/-- C12: `es_passat(d)` returns true exactly when `d` is not strictly later than the
clock, that is when `d` precedes the clock or is the clock itself; in particular the
instant equal to the clock counts as past. -/
theorem C12_es_passat_iff (a : Agenda) (d : Data) :
    (a.es_passat d = true ↔ ordre_instant a.clock_ d = false) ∧
    (a.es_passat d = true ↔ ordre_instant d a.clock_ = true ∨ d = a.clock_) ∧
    a.es_passat a.clock_ = true := by
  have h1 : a.es_passat d = true ↔ ordre_instant a.clock_ d = false := by
    unfold Agenda.es_passat
    rw [Bool.not_eq_true']
  refine ⟨h1, ?_, ?_⟩
  · rw [h1]
    constructor
    · intro h
      cases h2 : ordre_instant d a.clock_ with
      | true => exact Or.inl rfl
      | false => exact Or.inr (ordre_instant_total h2 h)
    · rintro (h | h)
      · cases h2 : ordre_instant a.clock_ d with
        | false => rfl
        | true => exact absurd (ordre_instant_trans h h2) (by rw [ordre_instant_irrefl]; simp)
      · rw [h]; exact ordre_instant_irrefl _
  · unfold Agenda.es_passat
    rw [ordre_instant_irrefl]
    rfl

/-! ### The tag index stays the inverse of the tag sets -/

theorem mem_instants_insert_iff (d x : Data) (s : List Data) :
    x ∈ instants_insert d s ↔ x = d ∨ x ∈ s := by
  induction s with
  | nil => simp [instants_insert]
  | cons y ys ih =>
    simp only [instants_insert]
    split_ifs with h1 h2
    · simp only [List.mem_cons]
    · simp only [List.mem_cons, ih]
      tauto
    · have hdy : d = y := ordre_instant_total (by simpa using h1) (by simpa using h2)
      subst hdy
      simp only [List.mem_cons]
      tauto

theorem instants_insert_ascending (d : Data) {s : List Data} (h : AscendingInstants s) :
    AscendingInstants (instants_insert d s) := by
  unfold AscendingInstants at *
  induction s with
  | nil => simp [instants_insert]
  | cons y ys ih =>
    rw [List.pairwise_cons] at h
    simp only [instants_insert]
    split_ifs with h1 h2
    · refine List.pairwise_cons.mpr ⟨?_, List.pairwise_cons.mpr h⟩
      intro z hz
      rcases List.mem_cons.mp hz with hz | hz
      · rw [hz]; exact h1
      · exact ordre_instant_trans h1 (h.1 z hz)
    · refine List.pairwise_cons.mpr ⟨?_, ih h.2⟩
      intro z hz
      rcases (mem_instants_insert_iff d z ys).mp hz with hz | hz
      · rw [hz]; exact h2
      · exact h.1 z hz
    · exact List.pairwise_cons.mpr h

theorem mem_instants_erase_iff (d x : Data) {s : List Data} (h : AscendingInstants s) :
    x ∈ instants_erase d s ↔ x ≠ d ∧ x ∈ s := by
  unfold AscendingInstants at h
  induction s with
  | nil => simp [instants_erase]
  | cons y ys ih =>
    rw [List.pairwise_cons] at h
    simp only [instants_erase]
    split_ifs with h1
    · subst h1
      simp only [List.mem_cons]
      constructor
      · intro hx
        exact ⟨fun hxy => ordre_instant_ne (h.1 x hx) hxy.symm, Or.inr hx⟩
      · rintro ⟨hne, hx | hx⟩
        · exact absurd hx hne
        · exact hx
    · simp only [List.mem_cons, ih h.2]
      constructor
      · rintro (hx | ⟨hne, hx⟩)
        · exact ⟨fun hxd => h1 (hx.symm.trans hxd), Or.inl hx⟩
        · exact ⟨hne, Or.inr hx⟩
      · rintro ⟨hne, hx | hx⟩
        · exact Or.inl hx
        · exact Or.inr ⟨hne, hx⟩

theorem instants_erase_sublist (d : Data) (s : List Data) :
    (instants_erase d s).Sublist s := by
  induction s with
  | nil => exact List.Sublist.refl _
  | cons y ys ih =>
    simp only [instants_erase]
    split_ifs
    · exact List.sublist_cons_self _ _
    · exact List.Sublist.cons₂ _ ih

theorem instants_erase_ascending (d : Data) {s : List Data} (h : AscendingInstants s) :
    AscendingInstants (instants_erase d s) :=
  List.Pairwise.sublist (instants_erase_sublist d s) h

theorem index_insert_keys (tag : Str) (d : Data) (idx : List (Str × List Data)) :
    (index_insert tag d idx).map Prod.fst = set_insert tag (idx.map Prod.fst) := by
  induction idx with
  | nil => rfl
  | cons p rest ih =>
    obtain ⟨k, s⟩ := p
    simp only [index_insert, List.map_cons, set_insert]
    split_ifs
    · rfl
    · simp only [List.map_cons, ih]
    · rfl

theorem index_erase_keys (tag : Str) (d : Data) (idx : List (Str × List Data)) :
    (index_erase tag d idx).map Prod.fst = idx.map Prod.fst := by
  induction idx with
  | nil => rfl
  | cons p rest ih =>
    obtain ⟨k, s⟩ := p
    simp only [index_erase]
    split_ifs
    · rfl
    · simp only [List.map_cons, ih]

theorem tag_set_find_eq_nil {idx : List (Str × List Data)} {tag : Str}
    (h : tag ∉ idx.map Prod.fst) : tag_set_find idx tag = [] := by
  induction idx with
  | nil => rfl
  | cons p rest ih =>
    obtain ⟨k, s⟩ := p
    simp only [List.map_cons, List.mem_cons, not_or] at h
    simp only [tag_set_find]
    rw [if_neg (fun hk => h.1 hk.symm)]
    exact ih h.2

theorem tag_set_find_index_insert (tag tag' : Str) (d : Data) {idx : List (Str × List Data)}
    (h : Ascending (idx.map Prod.fst)) :
    tag_set_find (index_insert tag d idx) tag' =
      if tag' = tag then instants_insert d (tag_set_find idx tag) else tag_set_find idx tag' := by
  unfold Ascending at h
  induction idx with
  | nil =>
    by_cases ht : tag' = tag
    · simp [index_insert, tag_set_find, instants_insert, ht]
    · simp [index_insert, tag_set_find, ht, Ne.symm ht]
  | cons p rest ih =>
    obtain ⟨k, s⟩ := p
    rw [List.map_cons, List.pairwise_cons] at h
    by_cases h1 : string_lt tag k = true
    · have hnot : tag ∉ ((k, s) :: rest).map Prod.fst := by
        simp only [List.map_cons, List.mem_cons, not_or]
        refine ⟨string_lt_ne h1, fun hm => ?_⟩
        exact string_lt_ne (string_lt_trans h1 (h.1 tag hm)) rfl
      have hnil := tag_set_find_eq_nil hnot
      by_cases ht : tag' = tag
      · rw [if_pos ht, hnil]
        simp [index_insert, h1, tag_set_find, instants_insert, ht]
      · rw [if_neg ht]
        simp [index_insert, h1, tag_set_find, Ne.symm ht]
    · by_cases h3 : string_lt k tag = true
      · have hk : k ≠ tag := string_lt_ne h3
        have hstep : tag_set_find (index_insert tag d ((k, s) :: rest)) tag' =
            if k = tag' then s else tag_set_find (index_insert tag d rest) tag' := by
          simp [index_insert, h1, h3, tag_set_find]
        rw [hstep, ih h.2]
        by_cases ht : tag' = tag
        · have hk' : k ≠ tag' := fun hh => hk (hh.trans ht)
          simp [tag_set_find, ht, hk]
        · by_cases hkt : k = tag'
          · simp [tag_set_find, ht, hkt]
          · simp [tag_set_find, ht, hkt]
      · have hk : tag = k := string_lt_total (by simpa using h1) (by simpa using h3)
        subst hk
        have hstep : index_insert tag d ((tag, s) :: rest) = (tag, instants_insert d s) :: rest := by
          simp [index_insert, h1]
        rw [hstep]
        by_cases ht : tag' = tag
        · simp [tag_set_find, ht]
        · simp [tag_set_find, ht, Ne.symm ht]

theorem tag_set_find_index_erase (tag tag' : Str) (d : Data) (idx : List (Str × List Data)) :
    tag_set_find (index_erase tag d idx) tag' =
      if tag' = tag then instants_erase d (tag_set_find idx tag) else tag_set_find idx tag' := by
  induction idx with
  | nil => simp [index_erase, tag_set_find, instants_erase]
  | cons p rest ih =>
    obtain ⟨k, s⟩ := p
    by_cases h1 : k = tag
    · subst h1
      by_cases ht : tag' = k
      · simp [index_erase, tag_set_find, ht]
      · simp [index_erase, tag_set_find, ht, Ne.symm ht]
    · have hstep : tag_set_find (index_erase tag d ((k, s) :: rest)) tag' =
          if k = tag' then s else tag_set_find (index_erase tag d rest) tag' := by
        simp [index_erase, h1, tag_set_find]
      rw [hstep, ih]
      by_cases ht : tag' = tag
      · have hk' : k ≠ tag' := fun hh => h1 (hh.trans ht)
        simp [tag_set_find, ht, h1]
      · by_cases hkt : k = tag'
        · simp [tag_set_find, ht, hkt]
        · simp [tag_set_find, ht, hkt]

theorem index_insert_ordered (tag : Str) (d : Data) {idx : List (Str × List Data)}
    (h : IndexOrdered idx) : IndexOrdered (index_insert tag d idx) := by
  refine ⟨?_, fun tag' => ?_⟩
  · rw [index_insert_keys]
    exact set_insert_ascending tag h.1
  · rw [tag_set_find_index_insert tag tag' d h.1]
    split_ifs
    · exact instants_insert_ascending d (h.2 tag)
    · exact h.2 tag'

theorem index_erase_ordered (tag : Str) (d : Data) {idx : List (Str × List Data)}
    (h : IndexOrdered idx) : IndexOrdered (index_erase tag d idx) := by
  refine ⟨?_, fun tag' => ?_⟩
  · rw [index_erase_keys]
    exact h.1
  · rw [tag_set_find_index_erase tag tag' d idx]
    split_ifs
    · exact instants_erase_ascending d (h.2 tag)
    · exact h.2 tag'

theorem mem_index_insert (tag tag' : Str) (d x : Data) {idx : List (Str × List Data)}
    (h : IndexOrdered idx) :
    x ∈ tag_set_find (index_insert tag d idx) tag' ↔
      (tag' = tag ∧ x = d) ∨ x ∈ tag_set_find idx tag' := by
  rw [tag_set_find_index_insert tag tag' d h.1]
  by_cases ht : tag' = tag
  · rw [if_pos ht, mem_instants_insert_iff, ht]
    tauto
  · rw [if_neg ht]
    tauto

theorem mem_index_erase (tag tag' : Str) (d x : Data) {idx : List (Str × List Data)}
    (h : IndexOrdered idx) :
    x ∈ tag_set_find (index_erase tag d idx) tag' ↔
      x ∈ tag_set_find idx tag' ∧ ¬(tag' = tag ∧ x = d) := by
  rw [tag_set_find_index_erase tag tag' d idx]
  by_cases ht : tag' = tag
  · rw [if_pos ht, mem_instants_erase_iff d x (h.2 tag), ht]
    tauto
  · rw [if_neg ht]
    tauto

theorem index_insert_all_spec (tags : List Str) (d : Data) {idx : List (Str × List Data)}
    (h : IndexOrdered idx) :
    IndexOrdered (index_insert_all tags d idx) ∧
    ∀ tag' x, x ∈ tag_set_find (index_insert_all tags d idx) tag' ↔
      (tag' ∈ tags ∧ x = d) ∨ x ∈ tag_set_find idx tag' := by
  unfold index_insert_all
  induction tags generalizing idx with
  | nil => exact ⟨h, fun tag' x => by simp⟩
  | cons t ts ih =>
    have h' := index_insert_ordered t d h
    obtain ⟨ho, hm⟩ := ih h'
    refine ⟨ho, fun tag' x => ?_⟩
    rw [List.foldl_cons, hm, mem_index_insert t tag' d x h, List.mem_cons]
    tauto

theorem index_erase_all_spec (tags : List Str) (d : Data) {idx : List (Str × List Data)}
    (h : IndexOrdered idx) :
    IndexOrdered (index_erase_all tags d idx) ∧
    ∀ tag' x, x ∈ tag_set_find (index_erase_all tags d idx) tag' ↔
      x ∈ tag_set_find idx tag' ∧ ¬(tag' ∈ tags ∧ x = d) := by
  unfold index_erase_all
  induction tags generalizing idx with
  | nil => exact ⟨h, fun tag' x => by simp⟩
  | cons t ts ih =>
    have h' := index_erase_ordered t d h
    obtain ⟨ho, hm⟩ := ih h'
    refine ⟨ho, fun tag' x => ?_⟩
    rw [List.foldl_cons, hm, mem_index_erase t tag' d x h, List.mem_cons]
    tauto

theorem store_find_mem {l : List (Data × Tasca)} {d : Data} {t : Tasca}
    (h : store_find l d = some t) : (d, t) ∈ l := by
  induction l with
  | nil => simp [store_find] at h
  | cons p rest ih =>
    obtain ⟨k, v⟩ := p
    simp only [store_find] at h
    split_ifs at h with hk
    · rw [Option.some.injEq] at h
      rw [hk, h]
      exact List.mem_cons_self _ _
    · exact List.mem_cons_of_mem _ (ih h)

theorem not_mem_keys_of_store_find {l : List (Data × Tasca)} {d : Data}
    (h : (store_find l d).isSome = false) : d ∉ l.map Prod.fst := by
  intro hm
  obtain ⟨p, hp, hpd⟩ := List.mem_map.mp hm
  have : (d, p.2) ∈ l := by rw [← hpd]; exact hp
  rw [store_find_isSome_of_mem this] at h
  exact Bool.noConfusion h

theorem mem_store_insert_iff {d : Data} {t : Tasca} {l : List (Data × Tasca)}
    (hd : d ∉ l.map Prod.fst) (p : Data × Tasca) :
    p ∈ store_insert d t l ↔ p = (d, t) ∨ p ∈ l := by
  induction l with
  | nil => simp [store_insert]
  | cons q rest ih =>
    obtain ⟨k, v⟩ := q
    simp only [List.map_cons, List.mem_cons, not_or] at hd
    simp only [store_insert]
    split_ifs with h1 h2
    · simp only [List.mem_cons]
    · simp only [List.mem_cons, ih hd.2]
      tauto
    · exact absurd (ordre_instant_total (by simpa using h1) (by simpa using h2)) hd.1

theorem mem_store_erase_iff (d : Data) {l : List (Data × Tasca)}
    (h : AscendingInstants (l.map Prod.fst)) (p : Data × Tasca) :
    p ∈ store_erase d l ↔ p.1 ≠ d ∧ p ∈ l := by
  unfold AscendingInstants at h
  induction l with
  | nil => simp [store_erase]
  | cons q rest ih =>
    obtain ⟨k, v⟩ := q
    rw [List.map_cons, List.pairwise_cons] at h
    have hrest : ∀ p ∈ rest, p.1 ≠ k := fun p hp hpk =>
      ordre_instant_ne (h.1 p.1 (List.mem_map.mpr ⟨p, hp, rfl⟩)) hpk.symm
    simp only [store_erase]
    split_ifs with h1
    · subst h1
      simp only [List.mem_cons]
      constructor
      · intro hp
        exact ⟨hrest p hp, Or.inr hp⟩
      · rintro ⟨hne, hp | hp⟩
        · exact absurd (by rw [hp]) hne
        · exact hp
    · simp only [List.mem_cons, ih h.2]
      constructor
      · rintro (hp | ⟨hne, hp⟩)
        · exact ⟨by rw [hp]; exact h1, Or.inl hp⟩
        · exact ⟨hne, Or.inr hp⟩
      · rintro ⟨hne, hp | hp⟩
        · exact Or.inl hp
        · exact Or.inr ⟨hne, hp⟩

theorem mem_store_update_iff (d : Data) (f : Tasca → Tasca) {l : List (Data × Tasca)}
    (h : AscendingInstants (l.map Prod.fst)) (k : Data) (v : Tasca) :
    (k, v) ∈ store_update d f l ↔
      (k ≠ d ∧ (k, v) ∈ l) ∨ (k = d ∧ ∃ v0, (d, v0) ∈ l ∧ v = f v0) := by
  unfold AscendingInstants at h
  induction l with
  | nil => simp [store_update]
  | cons q rest ih =>
    obtain ⟨k', v'⟩ := q
    rw [List.map_cons, List.pairwise_cons] at h
    have hrest : ∀ w, (k', w) ∉ rest := fun w hw =>
      ordre_instant_ne (h.1 k' (List.mem_map.mpr ⟨(k', w), hw, rfl⟩)) rfl
    simp only [store_update]
    split_ifs with h1
    · subst h1
      simp only [List.mem_cons, Prod.mk.injEq]
      constructor
      · rintro (⟨hk, hv⟩ | hp)
        · exact Or.inr ⟨hk, v', Or.inl ⟨trivial, rfl⟩, hv⟩
        · refine Or.inl ⟨fun hk => ?_, Or.inr hp⟩
          rw [hk] at hp
          exact hrest v hp
      · rintro (⟨hne, hp | hp⟩ | ⟨hk, v0, hp | hp, hv⟩)
        · exact absurd hp.1 hne
        · exact Or.inr hp
        · exact Or.inl ⟨hk, by rw [hv, hp.2]⟩
        · exact absurd hp (hrest v0)
    · simp only [List.mem_cons, Prod.mk.injEq, ih h.2]
      constructor
      · rintro (⟨hk, hv⟩ | ⟨hne, hp⟩ | ⟨hk, v0, hp, hv⟩)
        · exact Or.inl ⟨by rw [hk]; exact h1, Or.inl ⟨hk, hv⟩⟩
        · exact Or.inl ⟨hne, Or.inr hp⟩
        · exact Or.inr ⟨hk, v0, Or.inr hp, hv⟩
      · rintro (⟨hne, hp | hp⟩ | ⟨hk, v0, hp | hp, hv⟩)
        · exact Or.inl hp
        · exact Or.inr (Or.inl ⟨hne, hp⟩)
        · exact absurd hp.1.symm h1
        · exact Or.inr (Or.inr ⟨hk, v0, hp, hv⟩)

theorem mem_set_erase_iff (e y : Str) {l : List Str} (h : Ascending l) :
    y ∈ set_erase e l ↔ y ≠ e ∧ y ∈ l := by
  constructor
  · intro hy
    refine ⟨fun hye => ?_, mem_set_erase hy⟩
    rw [hye] at hy
    exact not_mem_set_erase_self e h hy
  · rintro ⟨hne, hy⟩
    clear h
    induction l with
    | nil => simp at hy
    | cons x xs ih =>
      simp only [set_erase]
      split_ifs with h1 h2
      · exact hy
      · rcases List.mem_cons.mp hy with hy | hy
        · rw [hy]; exact List.mem_cons_self _ _
        · exact List.mem_cons_of_mem _ (ih hy)
      · rcases List.mem_cons.mp hy with hy | hy
        · have hex : e = x := string_lt_total (by simpa using h1) (by simpa using h2)
          exact absurd (hy.trans hex.symm) hne
        · exact hy

theorem StoreInv_insert {tasks : List (Data × Tasca)} {idx : List (Str × List Data)}
    (h : StoreInv tasks idx) {d : Data} (hd : d ∉ tasks.map Prod.fst) (t : Tasca) :
    StoreInv (store_insert d t tasks) (index_insert_all t.tags_.elems d idx) := by
  obtain ⟨hk, ho, hrel⟩ := h
  obtain ⟨ho', hm⟩ := index_insert_all_spec t.tags_.elems d ho
  refine ⟨store_insert_keys_ascending d t hk, ho', fun tag x => ?_⟩
  rw [hm, hrel]
  constructor
  · rintro (⟨htag, hx⟩ | ⟨t0, ht0, htag⟩)
    · exact ⟨t, (mem_store_insert_iff hd _).mpr (Or.inl (by rw [hx])), htag⟩
    · exact ⟨t0, (mem_store_insert_iff hd _).mpr (Or.inr ht0), htag⟩
  · rintro ⟨t', ht', htag⟩
    rcases (mem_store_insert_iff hd _).mp ht' with he | hmem
    · have h1 := (Prod.mk.inj he).1
      have h2 := (Prod.mk.inj he).2
      rw [h2] at htag
      exact Or.inl ⟨htag, h1⟩
    · exact Or.inr ⟨t', hmem, htag⟩

theorem StoreInv_erase {tasks : List (Data × Tasca)} {idx : List (Str × List Data)}
    (h : StoreInv tasks idx) {d : Data} {t : Tasca} (ht : (d, t) ∈ tasks) :
    StoreInv (store_erase d tasks) (index_erase_all t.tags_.elems d idx) := by
  obtain ⟨hk, ho, hrel⟩ := h
  obtain ⟨ho', hm⟩ := index_erase_all_spec t.tags_.elems d ho
  refine ⟨store_erase_keys_ascending d hk, ho', fun tag x => ?_⟩
  rw [hm, hrel]
  constructor
  · rintro ⟨⟨t0, ht0, htag⟩, hnot⟩
    refine ⟨t0, (mem_store_erase_iff d hk _).mpr ⟨fun hx => hnot ⟨?_, hx⟩, ht0⟩, htag⟩
    have hx' : x = d := hx
    rw [hx'] at ht0
    rw [← tasks_key_unique tasks hk ht0 ht]
    exact htag
  · rintro ⟨t', ht', htag⟩
    obtain ⟨hne, hmem⟩ := (mem_store_erase_iff d hk _).mp ht'
    exact ⟨⟨t', hmem, htag⟩, fun hh => hne hh.2⟩

theorem StoreInv_update_same_tags {tasks : List (Data × Tasca)} {idx : List (Str × List Data)}
    (h : StoreInv tasks idx) (d : Data) (f : Tasca → Tasca)
    (hf : ∀ v, (f v).tags_.elems = v.tags_.elems) :
    StoreInv (store_update d f tasks) idx := by
  obtain ⟨hk, ho, hrel⟩ := h
  refine ⟨by rw [store_update_keys]; exact hk, ho, fun tag x => ?_⟩
  rw [hrel]
  constructor
  · rintro ⟨t0, ht0, htag⟩
    by_cases hx : x = d
    · refine ⟨f t0, (mem_store_update_iff d f hk _ _).mpr (Or.inr ⟨hx, t0, ?_, rfl⟩), ?_⟩
      · rw [← hx]; exact ht0
      · rw [hf]; exact htag
    · exact ⟨t0, (mem_store_update_iff d f hk _ _).mpr (Or.inl ⟨hx, ht0⟩), htag⟩
  · rintro ⟨t', ht', htag⟩
    rcases (mem_store_update_iff d f hk _ _).mp ht' with ⟨_, hmem⟩ | ⟨hx, v0, hv0, hv⟩
    · exact ⟨t', hmem, htag⟩
    · refine ⟨v0, by rw [hx]; exact hv0, ?_⟩
      rw [hv, hf] at htag
      exact htag

theorem StoreInv_add_etiqueta {tasks : List (Data × Tasca)} {idx : List (Str × List Data)}
    (h : StoreInv tasks idx) {d : Data} {t : Tasca} (ht : (d, t) ∈ tasks) (e : Str) :
    StoreInv (store_update d (fun v => v.add_etiqueta e) tasks) (index_insert e d idx) := by
  obtain ⟨hk, ho, hrel⟩ := h
  refine ⟨by rw [store_update_keys]; exact hk, index_insert_ordered e d ho, fun tag x => ?_⟩
  rw [mem_index_insert e tag d x ho, hrel]
  constructor
  · rintro (⟨htag, hx⟩ | ⟨t0, ht0, htag⟩)
    · refine ⟨t.add_etiqueta e,
        (mem_store_update_iff d _ hk _ _).mpr (Or.inr ⟨hx, t, ht, rfl⟩), ?_⟩
      rw [htag]
      exact mem_set_insert_self e _
    · by_cases hx : x = d
      · refine ⟨t0.add_etiqueta e,
          (mem_store_update_iff d _ hk _ _).mpr (Or.inr ⟨hx, t0, by rw [← hx]; exact ht0, rfl⟩), ?_⟩
        exact mem_set_insert_of_mem htag
      · exact ⟨t0, (mem_store_update_iff d _ hk _ _).mpr (Or.inl ⟨hx, ht0⟩), htag⟩
  · rintro ⟨t', ht', htag⟩
    rcases (mem_store_update_iff d _ hk _ _).mp ht' with ⟨_, hmem⟩ | ⟨hx, v0, hv0, hv⟩
    · exact Or.inr ⟨t', hmem, htag⟩
    · rw [hv] at htag
      rcases mem_set_insert htag with he | hmem
      · exact Or.inl ⟨he, hx⟩
      · exact Or.inr ⟨v0, by rw [hx]; exact hv0, hmem⟩

theorem StoreInv_del_etiqueta {tasks : List (Data × Tasca)} {idx : List (Str × List Data)}
    (h : StoreInv tasks idx) (d : Data) (e : Str) :
    StoreInv (store_update d (fun v => v.del_etiqueta e) tasks) (index_erase e d idx) := by
  obtain ⟨hk, ho, hrel⟩ := h
  refine ⟨by rw [store_update_keys]; exact hk, index_erase_ordered e d ho, fun tag x => ?_⟩
  rw [mem_index_erase e tag d x ho, hrel]
  constructor
  · rintro ⟨⟨t0, ht0, htag⟩, hnot⟩
    by_cases hx : x = d
    · refine ⟨t0.del_etiqueta e,
        (mem_store_update_iff d _ hk _ _).mpr (Or.inr ⟨hx, t0, by rw [← hx]; exact ht0, rfl⟩), ?_⟩
      exact (mem_set_erase_iff e tag t0.tags_.asc).mpr ⟨fun he => hnot ⟨he, hx⟩, htag⟩
    · exact ⟨t0, (mem_store_update_iff d _ hk _ _).mpr (Or.inl ⟨hx, ht0⟩), htag⟩
  · rintro ⟨t', ht', htag⟩
    rcases (mem_store_update_iff d _ hk _ _).mp ht' with ⟨hne, hmem⟩ | ⟨hx, v0, hv0, hv⟩
    · exact ⟨⟨t', hmem, htag⟩, fun hh => hne hh.2⟩
    · rw [hv] at htag
      obtain ⟨hne, hmem⟩ := (mem_set_erase_iff e tag v0.tags_.asc).mp htag
      exact ⟨⟨v0, by rw [hx]; exact hv0, hmem⟩, fun hh => hne hh.1⟩

theorem StoreInv_del_etiquetes {tasks : List (Data × Tasca)} {idx : List (Str × List Data)}
    (h : StoreInv tasks idx) {d : Data} {t : Tasca} (ht : (d, t) ∈ tasks) :
    StoreInv (store_update d (fun v => v.del_etiquetes) tasks)
      (index_erase_all t.tags_.elems d idx) := by
  obtain ⟨hk, ho, hrel⟩ := h
  obtain ⟨ho', hm⟩ := index_erase_all_spec t.tags_.elems d ho
  refine ⟨by rw [store_update_keys]; exact hk, ho', fun tag x => ?_⟩
  rw [hm, hrel]
  constructor
  · rintro ⟨⟨t0, ht0, htag⟩, hnot⟩
    have hx : x ≠ d := by
      intro hx
      apply hnot
      refine ⟨?_, hx⟩
      rw [hx] at ht0
      rw [← tasks_key_unique tasks hk ht0 ht]
      exact htag
    exact ⟨t0, (mem_store_update_iff d _ hk _ _).mpr (Or.inl ⟨hx, ht0⟩), htag⟩
  · rintro ⟨t', ht', htag⟩
    rcases (mem_store_update_iff d _ hk _ _).mp ht' with ⟨hne, hmem⟩ | ⟨hx, v0, hv0, hv⟩
    · exact ⟨⟨t', hmem, htag⟩, fun hh => hne hh.2⟩
    · rw [hv] at htag
      simp [Tasca.del_etiquetes] at htag

theorem menu_mem {a : Agenda} {id : Int} {d : Data} {t : Tasca}
    (h : a.menu id = some (d, t)) : (d, t) ∈ a.tasks_ := by
  unfold Agenda.menu at h
  split_ifs at h
  split at h
  · exact absurd h (Option.noConfusion)
  · rename_i d' _
    split_ifs at h
    split at h
    · exact absurd h (Option.noConfusion)
    · rename_i t' hfind
      rw [Option.some.injEq, Prod.mk.injEq] at h
      rw [← h.1, ← h.2]
      exact store_find_mem hfind

theorem consulta_tags (a : Agenda) (dia1 dia2 : Dia) (expressio : Str) :
    (a.consulta dia1 dia2 expressio).tags_ = a.tags_ := by
  unfold Agenda.consulta
  split_ifs
  · rfl
  · split <;> rfl

theorem consulta_clock (a : Agenda) (dia1 dia2 : Dia) (expressio : Str) :
    (a.consulta dia1 dia2 expressio).clock_ = a.clock_ := by
  unfold Agenda.consulta
  split_ifs
  · rfl
  · split <;> rfl

theorem set_data_StoreInv (a : Agenda) (id : Int) (nova : Data)
    (h : StoreInv a.tasks_ a.tags_) :
    StoreInv (a.set_data id nova).1.tasks_ (a.set_data id nova).1.tags_ := by
  unfold Agenda.set_data
  split
  · exact h
  · rename_i d t hmenu
    have hmem := menu_mem hmenu
    split_ifs with h1 h2
    · exact h
    · exact h
    · have herase := StoreInv_erase h hmem
      have hnova : nova ∉ (store_erase d a.tasks_).map Prod.fst := by
        intro hm
        exact not_mem_keys_of_store_find (by simpa using h2)
          ((store_erase_keys_sublist d a.tasks_).subset hm)
      exact StoreInv_insert herase hnova t

/-- In every reachable state the primary store and the tag index satisfy the invariant
that ties them together. -/
theorem Reachable_StoreInv {a : Agenda} (h : a.Reachable) : StoreInv a.tasks_ a.tags_ := by
  induction h with
  | buida rellotge =>
    refine ⟨List.Pairwise.nil, ⟨List.Pairwise.nil, fun _ => List.Pairwise.nil⟩, fun tag x => ?_⟩
    simp [Agenda.buida, tag_set_find]
  | set_rellotge data _ ih =>
    unfold Agenda.set_rellotge
    split_ifs <;> exact ih
  | add_tasca data t _ ih =>
    unfold Agenda.add_tasca Agenda.p_add_tasca
    split_ifs with h1 h2
    · exact ih
    · exact ih
    · exact StoreInv_insert ih (not_mem_keys_of_store_find (by simpa using h2)) t
  | set_titol id titol _ ih =>
    unfold Agenda.set_titol
    split
    · exact ih
    · exact StoreInv_update_same_tags ih _ _ (fun _ => rfl)
  | set_dia id d _ ih =>
    unfold Agenda.set_dia
    split
    · exact ih
    · exact set_data_StoreInv _ _ _ ih
  | set_hora id d _ ih =>
    unfold Agenda.set_hora
    split
    · exact ih
    · exact set_data_StoreInv _ _ _ ih
  | set_data id d _ ih => exact set_data_StoreInv _ _ _ ih
  | add_etiqueta id etiqueta _ ih =>
    unfold Agenda.add_etiqueta
    split
    · exact ih
    · rename_i d t hmenu
      exact StoreInv_add_etiqueta ih (menu_mem hmenu) etiqueta
  | del_etiqueta id etiqueta _ ih =>
    unfold Agenda.del_etiqueta
    split
    · exact ih
    · exact StoreInv_del_etiqueta ih _ etiqueta
  | del_etiquetes id _ ih =>
    unfold Agenda.del_etiquetes
    split
    · exact ih
    · rename_i d t hmenu
      exact StoreInv_del_etiquetes ih (menu_mem hmenu)
  | del_tasca id _ ih =>
    unfold Agenda.del_tasca
    split
    · exact ih
    · rename_i d t hmenu
      exact StoreInv_erase ih (menu_mem hmenu)
  | consulta dia1 dia2 expressio _ ih =>
    rw [consulta_tasks, consulta_tags]; exact ih
  | consulta_dia dia expressio _ ih =>
    unfold Agenda.consulta_dia
    rw [consulta_tasks, consulta_tags]; exact ih
  | consulta_tot expressio _ ih =>
    unfold Agenda.consulta_tot
    split
    · rw [consulta_tasks, consulta_tags]; exact ih
    · exact ih

theorem StoreInv_wf {a : Agenda} (h : StoreInv a.tasks_ a.tags_) : a.wf := by
  obtain ⟨hk, ⟨hkeys, hsets⟩, hrel⟩ := h
  have hne : (a.tags_.map Prod.fst).Pairwise (fun k1 k2 => k1 ≠ k2) :=
    List.Pairwise.imp (fun hab => string_lt_ne hab) hkeys
  refine ⟨hk, hne, ?_, ?_, ?_⟩
  · intro p hp
    have := hsets p.1
    rw [tag_set_find_of_mem a.tags_ hne hp] at this
    exact this
  · intro p hp d hd
    rw [← tag_set_find_of_mem a.tags_ hne hp] at hd
    obtain ⟨t, ht, htag⟩ := (hrel p.1 d).mp hd
    exact ⟨(d, t), ht, rfl, htag⟩
  · intro q hq tag htag
    exact (hrel tag q.1).mpr ⟨q.2, hq, htag⟩

/-- Every reachable state satisfies the class invariant. -/
theorem Reachable_wf {a : Agenda} (h : a.Reachable) : a.wf :=
  StoreInv_wf (Reachable_StoreInv h)

/-! ### The tokenizer reads every admissible layout -/

theorem isspace_not_paren {c : Char} (h : isspace c = true) : c ≠ '(' ∧ c ≠ ')' := by
  constructor
  · intro hc
    rw [hc] at h
    exact absurd h (by decide)
  · intro hc
    rw [hc] at h
    exact absurd h (by decide)

theorem word_token_nil : word_token [] = [] := rfl

theorem tokenize_nil (w : Str) : tokenize [] w = word_token w := rfl

theorem tokenize_space {c : Char} (h : isspace c = true) (cs w : Str) :
    tokenize (c :: cs) w = word_token w ++ tokenize cs [] := by
  obtain ⟨h1, h2⟩ := isspace_not_paren h
  simp only [tokenize, if_neg h1, if_neg h2, h, if_true]

theorem tokenize_lpar (cs w : Str) :
    tokenize ('(' :: cs) w = word_token w ++ Token.lpar :: tokenize cs [] := by
  simp only [tokenize, if_true]

theorem tokenize_rpar (cs w : Str) :
    tokenize (')' :: cs) w = word_token w ++ Token.rpar :: tokenize cs [] := by
  have h : ¬(')' = '(') := by decide
  simp only [tokenize, if_neg h, if_true]

theorem tokenize_word_char {c : Char} (h : word_char c = true) (cs w : Str) :
    tokenize (c :: cs) w = tokenize cs (w ++ [c]) := by
  unfold word_char at h
  simp only [Bool.and_eq_true, Bool.not_eq_true', decide_eq_false_iff_not] at h
  obtain ⟨⟨h0, h1⟩, h2⟩ := h
  simp only [tokenize, if_neg h1, if_neg h2, h0]
  rfl

theorem tokenize_spaces (ws : Str) (hws : ws.all isspace = true) (rest w : Str) :
    tokenize (ws ++ rest) w =
      if ws = [] then tokenize rest w else word_token w ++ tokenize rest [] := by
  induction ws generalizing w with
  | nil => rfl
  | cons c cs ih =>
    rw [List.all_cons, Bool.and_eq_true] at hws
    rw [if_neg (List.cons_ne_nil _ _), List.cons_append, tokenize_space hws.1, ih hws.2]
    split_ifs
    · rfl
    · rw [word_token_nil, List.nil_append]

theorem tokenize_word (u : Str) (hu : u.all word_char = true) (rest w : Str) :
    tokenize (u ++ rest) w = tokenize rest (w ++ u) := by
  induction u generalizing w with
  | nil => rw [List.nil_append, List.append_nil]
  | cons c cs ih =>
    rw [List.all_cons, Bool.and_eq_true] at hu
    rw [List.cons_append, tokenize_word_char hu.1, ih hu.2, List.append_assoc]
    rfl

theorem spell_word {t : Token} (hw : t.is_word = true) (hok : t.ok = true) :
    (spell t).all word_char = true ∧ (spell t).isEmpty = false ∧ word_token (spell t) = [t] := by
  cases t with
  | lpar => exact absurd hw (by decide)
  | rpar => exact absurd hw (by decide)
  | and => exact ⟨by decide, by decide, by decide⟩
  | or => exact ⟨by decide, by decide, by decide⟩
  | not => exact ⟨by decide, by decide, by decide⟩
  | name s =>
    simp only [Token.ok, valid_name, Bool.and_eq_true, Bool.not_eq_true',
      decide_eq_false_iff_not] at hok
    obtain ⟨⟨⟨⟨h1, h2⟩, h3⟩, h4⟩, h5⟩ := hok
    refine ⟨h2, h1, ?_⟩
    have hne : s ≠ [] := by
      intro hs
      rw [hs] at h1
      exact absurd h1 (by decide)
    simp only [spell, word_token, if_neg hne, if_neg h3, if_neg h4, if_neg h5]

/-- The tokenizer, started with the word `w` under way, reads an admissible layout as the
pending word followed by the tokens of the layout. -/
theorem tokenize_layout (items : List (Str × Token)) (trailing : Str)
    (htr : trailing.all isspace = true) (w : Str) (hw : w.all word_char = true)
    (hok : layout_ok (!w.isEmpty) items = true) :
    tokenize (layout items trailing) w = word_token w ++ items.map Prod.snd := by
  induction items generalizing w with
  | nil =>
    have h := tokenize_spaces trailing htr [] w
    rw [List.append_nil] at h
    simp only [layout, List.map_nil, List.append_nil]
    rw [h]
    split_ifs
    · rfl
    · rw [tokenize_nil, word_token_nil, List.append_nil]
  | cons it rest ih =>
    obtain ⟨ws, t⟩ := it
    simp only [layout_ok, Bool.and_eq_true, Bool.or_eq_true, Bool.not_eq_true'] at hok
    obtain ⟨⟨⟨hws, htok⟩, hsep⟩, hrest⟩ := hok
    simp only [layout, List.map_cons]
    rw [tokenize_spaces ws hws]
    by_cases hword : t.is_word = true
    · obtain ⟨hchars, hnonempty, hspell⟩ := spell_word hword htok
      have hrest' : layout_ok (!(spell t).isEmpty) rest = true := by
        rw [hnonempty]
        rw [hword] at hrest
        exact hrest
      have hstep : tokenize (spell t ++ layout rest trailing) [] = t :: rest.map Prod.snd := by
        rw [tokenize_word (spell t) hchars, List.nil_append,
          ih (spell t) hchars hrest', hspell]
        rfl
      by_cases hempty : ws = []
      · rw [if_pos hempty]
        have hw' : w = [] := by
          rcases hsep with h | h
          · rw [hword, Bool.and_true, Bool.not_eq_false'] at h
            exact List.isEmpty_iff.mp h
          · rw [hempty] at h
            exact absurd h (by decide)
        rw [hw', hstep, word_token_nil, List.nil_append]
      · rw [if_neg hempty, hstep]
    · have hword' : t.is_word = false := by simpa using hword
      rw [hword'] at hrest
      have hrest' : layout_ok (!([] : Str).isEmpty) rest = true := hrest
      cases t with
      | lpar =>
        simp only [spell, List.cons_append, List.nil_append]
        rw [tokenize_lpar, tokenize_lpar, ih [] rfl hrest', word_token_nil, List.nil_append]
        split_ifs <;> rfl
      | rpar =>
        simp only [spell, List.cons_append, List.nil_append]
        rw [tokenize_rpar, tokenize_rpar, ih [] rfl hrest', word_token_nil, List.nil_append]
        split_ifs <;> rfl
      | and => exact absurd hword' (by decide)
      | or => exact absurd hword' (by decide)
      | not => exact absurd hword' (by decide)
      | name s => exact Bool.noConfusion hword'

/-! ### The parser accepts every expression of the grammar -/

/-- More fuel never changes the result of a parse that succeeded. -/
theorem parse_mono_succ (n : Nat) :
    (∀ ts r, parse_expr n ts = some r → parse_expr (n + 1) ts = some r) ∧
    (∀ acc ts r, parse_expr_tail n acc ts = some r → parse_expr_tail (n + 1) acc ts = some r) ∧
    (∀ ts r, parse_term n ts = some r → parse_term (n + 1) ts = some r) ∧
    (∀ acc ts r, parse_term_tail n acc ts = some r → parse_term_tail (n + 1) acc ts = some r) ∧
    (∀ ts r, parse_factor n ts = some r → parse_factor (n + 1) ts = some r) := by
  induction n with
  | zero =>
    refine ⟨?_, ?_, ?_, ?_, ?_⟩
    · intro ts r h; simp [parse_expr] at h
    · intro acc ts r h; simp [parse_expr_tail] at h
    · intro ts r h; simp [parse_term] at h
    · intro acc ts r h; simp [parse_term_tail] at h
    · intro ts r h; simp [parse_factor] at h
  | succ n ih =>
    obtain ⟨ihe, ihet, iht, ihtt, ihf⟩ := ih
    refine ⟨?_, ?_, ?_, ?_, ?_⟩
    · intro ts r h
      rw [parse_expr] at h ⊢
      cases hp : parse_term n ts with
      | none => rw [hp] at h; exact absurd h (by simp)
      | some q =>
        obtain ⟨e, rest⟩ := q
        rw [hp] at h
        rw [iht ts _ hp]
        exact ihet _ _ _ h
    · intro acc ts r h
      match ts, h with
      | [], h => simpa [parse_expr_tail] using h
      | Token.or :: ts, h =>
        rw [parse_expr_tail] at h ⊢
        cases hp : parse_term n ts with
        | none => rw [hp] at h; exact absurd h (by simp)
        | some q =>
          obtain ⟨e, rest⟩ := q
          rw [hp] at h
          rw [iht ts _ hp]
          exact ihet _ _ _ h
      | Token.lpar :: ts, h => simpa [parse_expr_tail] using h
      | Token.rpar :: ts, h => simpa [parse_expr_tail] using h
      | Token.and :: ts, h => simpa [parse_expr_tail] using h
      | Token.not :: ts, h => simpa [parse_expr_tail] using h
      | Token.name s :: ts, h => simpa [parse_expr_tail] using h
    · intro ts r h
      rw [parse_term] at h ⊢
      cases hp : parse_factor n ts with
      | none => rw [hp] at h; exact absurd h (by simp)
      | some q =>
        obtain ⟨e, rest⟩ := q
        rw [hp] at h
        rw [ihf ts _ hp]
        exact ihtt _ _ _ h
    · intro acc ts r h
      match ts, h with
      | [], h => simpa [parse_term_tail] using h
      | Token.and :: ts, h =>
        rw [parse_term_tail] at h ⊢
        cases hp : parse_factor n ts with
        | none => rw [hp] at h; exact absurd h (by simp)
        | some q =>
          obtain ⟨e, rest⟩ := q
          rw [hp] at h
          rw [ihf ts _ hp]
          exact ihtt _ _ _ h
      | Token.lpar :: ts, h => simpa [parse_term_tail] using h
      | Token.rpar :: ts, h => simpa [parse_term_tail] using h
      | Token.or :: ts, h => simpa [parse_term_tail] using h
      | Token.not :: ts, h => simpa [parse_term_tail] using h
      | Token.name s :: ts, h => simpa [parse_term_tail] using h
    · intro ts r h
      match ts, h with
      | [], h => simp [parse_factor] at h
      | Token.lpar :: ts, h =>
        rw [parse_factor] at h ⊢
        cases hp : parse_expr n ts with
        | none => rw [hp] at h; exact absurd h (by simp)
        | some q =>
          obtain ⟨e, rest⟩ := q
          rw [hp] at h
          rw [ihe ts _ hp]
          exact h
      | Token.rpar :: ts, h => simp [parse_factor] at h
      | Token.and :: ts, h => simp [parse_factor] at h
      | Token.or :: ts, h => simp [parse_factor] at h
      | Token.name s :: ts, h => simpa [parse_factor] using h
      | [Token.not], h => simp [parse_factor] at h
      | Token.not :: Token.name s :: ts, h => simpa [parse_factor] using h
      | Token.not :: Token.lpar :: ts, h => simp [parse_factor] at h
      | Token.not :: Token.rpar :: ts, h => simp [parse_factor] at h
      | Token.not :: Token.and :: ts, h => simp [parse_factor] at h
      | Token.not :: Token.or :: ts, h => simp [parse_factor] at h
      | Token.not :: Token.not :: ts, h => simp [parse_factor] at h

theorem parse_factor_mono {n m : Nat} (h : n ≤ m) {ts : List Token} {r : Expr × List Token}
    (hp : parse_factor n ts = some r) : parse_factor m ts = some r := by
  induction h with
  | refl => exact hp
  | step _ ih => exact (parse_mono_succ _).2.2.2.2 ts r ih

theorem parse_term_mono {n m : Nat} (h : n ≤ m) {ts : List Token} {r : Expr × List Token}
    (hp : parse_term n ts = some r) : parse_term m ts = some r := by
  induction h with
  | refl => exact hp
  | step _ ih => exact (parse_mono_succ _).2.2.1 ts r ih

theorem parse_term_tail_mono {n m : Nat} (h : n ≤ m) {acc : Expr} {ts : List Token}
    {r : Expr × List Token} (hp : parse_term_tail n acc ts = some r) :
    parse_term_tail m acc ts = some r := by
  induction h with
  | refl => exact hp
  | step _ ih => exact (parse_mono_succ _).2.2.2.1 acc ts r ih

theorem parse_expr_tail_mono {n m : Nat} (h : n ≤ m) {acc : Expr} {ts : List Token}
    {r : Expr × List Token} (hp : parse_expr_tail n acc ts = some r) :
    parse_expr_tail m acc ts = some r := by
  induction h with
  | refl => exact hp
  | step _ ih => exact (parse_mono_succ _).2.1 acc ts r ih

theorem Expr_tokens_length_pos (e : Expr) : 1 ≤ e.tokens.length := by
  cases e <;> simp [Expr.tokens] <;> omega

theorem parse_term_tail_stop (e : Expr) {rest : List Token}
    (h : rest.head? ≠ some Token.and) : parse_term_tail 1 e rest = some (e, rest) := by
  match rest, h with
  | [], _ => simp [parse_term_tail]
  | Token.and :: ts, h => exact absurd rfl h
  | Token.lpar :: ts, _ => simp [parse_term_tail]
  | Token.rpar :: ts, _ => simp [parse_term_tail]
  | Token.or :: ts, _ => simp [parse_term_tail]
  | Token.not :: ts, _ => simp [parse_term_tail]
  | Token.name s :: ts, _ => simp [parse_term_tail]

theorem parse_expr_tail_stop (e : Expr) {rest : List Token}
    (h : rest.head? ≠ some Token.or) : parse_expr_tail 1 e rest = some (e, rest) := by
  match rest, h with
  | [], _ => simp [parse_expr_tail]
  | Token.or :: ts, h => exact absurd rfl h
  | Token.lpar :: ts, _ => simp [parse_expr_tail]
  | Token.rpar :: ts, _ => simp [parse_expr_tail]
  | Token.and :: ts, _ => simp [parse_expr_tail]
  | Token.not :: ts, _ => simp [parse_expr_tail]
  | Token.name s :: ts, _ => simp [parse_expr_tail]

/-- What the parser does on the tokens of a factor, with any tokens after them. -/
def FactorParses (e : Expr) : Prop :=
  ∀ rest n, 5 * e.tokens.length ≤ n + 4 → parse_factor n (e.tokens ++ rest) = some (e, rest)

/-- What the parser does on the tokens of a term: it goes on as the loop over the factors
does from the tree of the term. -/
def TermParses (e : Expr) : Prop :=
  ∀ rest m res n, parse_term_tail m e rest = some res → m + 5 * e.tokens.length ≤ n + 3 →
    parse_term n (e.tokens ++ rest) = some res

/-- What the parser does on the tokens of an expression that is not followed by `AND`: it
goes on as the loop over the terms does from the tree of the expression. -/
def ExprParses (e : Expr) : Prop :=
  ∀ rest m res n, rest.head? ≠ some Token.and → parse_expr_tail m e rest = some res →
    m + 5 * e.tokens.length ≤ n + 1 → parse_expr n (e.tokens ++ rest) = some res

theorem TermParses_of_factor {e : Expr} (h : FactorParses e) : TermParses e := by
  intro rest m res n htail hn
  have hpos := Expr_tokens_length_pos e
  obtain ⟨k, rfl⟩ : ∃ k, n = k + 1 := ⟨n - 1, by omega⟩
  rw [parse_term, h rest k (by omega)]
  exact parse_term_tail_mono (by omega) htail

theorem ExprParses_of_term {e : Expr} (h : TermParses e) : ExprParses e := by
  intro rest m res n hhead htail hn
  have hpos := Expr_tokens_length_pos e
  obtain ⟨k, rfl⟩ : ∃ k, n = k + 1 := ⟨n - 1, by omega⟩
  rw [parse_expr, h rest 1 (e, rest) k (parse_term_tail_stop e hhead) (by omega)]
  exact parse_expr_tail_mono (by omega) htail

/-- The parser is complete for the grammar: on the tokens that spell a tree of the grammar
it rebuilds that tree, with the fuel that `parse_expressio` provides. -/
theorem parse_complete (e : Expr) :
    (e.gram 0 = true → FactorParses e) ∧ (e.gram 1 = true → TermParses e) ∧
    (e.gram 2 = true → ExprParses e) := by
  induction e with
  | tag name =>
    have hf : FactorParses (Expr.tag name) := by
      intro rest n hn
      obtain ⟨k, rfl⟩ : ∃ k, n = k + 1 := ⟨n - 1, by simp [Expr.tokens] at hn; omega⟩
      simp [Expr.tokens, parse_factor]
    exact ⟨fun _ => hf, fun _ => TermParses_of_factor hf,
      fun _ => ExprParses_of_term (TermParses_of_factor hf)⟩
  | not name =>
    have hf : FactorParses (Expr.not name) := by
      intro rest n hn
      obtain ⟨k, rfl⟩ : ∃ k, n = k + 1 := ⟨n - 1, by simp [Expr.tokens] at hn; omega⟩
      simp [Expr.tokens, parse_factor]
    exact ⟨fun _ => hf, fun _ => TermParses_of_factor hf,
      fun _ => ExprParses_of_term (TermParses_of_factor hf)⟩
  | group e ih =>
    have hf : Expr.gram e 2 = true → FactorParses (Expr.group e) := by
      intro hg rest n hn
      have he := ih.2.2 hg
      simp only [Expr.tokens, List.length_cons, List.length_append, List.length_nil] at hn
      obtain ⟨k, rfl⟩ : ∃ k, n = k + 1 := ⟨n - 1, by omega⟩
      have hparse : parse_expr k (e.tokens ++ Token.rpar :: rest) = some (e, Token.rpar :: rest) :=
        he (Token.rpar :: rest) 1 _ k (by simp) (parse_expr_tail_stop e (by simp)) (by omega)
      simp only [Expr.tokens, List.cons_append, List.append_assoc, List.nil_append, parse_factor,
        hparse]
    refine ⟨fun hg => hf hg, fun hg => TermParses_of_factor (hf hg),
      fun hg => ExprParses_of_term (TermParses_of_factor (hf hg))⟩
  | and e1 e2 ih1 ih2 =>
    have ht : Expr.gram e1 1 = true → Expr.gram e2 0 = true → TermParses (Expr.and e1 e2) := by
      intro hg1 hg2 rest m res n htail hn
      have h1 := ih1.2.1 hg1
      have h2 := ih2.1 hg2
      simp only [Expr.tokens, List.length_cons, List.length_append] at hn
      have hstep : parse_term_tail (m + 5 * e2.tokens.length + 1) e1
          (Token.and :: (e2.tokens ++ rest)) = some res := by
        rw [parse_term_tail, h2 rest _ (by omega)]
        exact parse_term_tail_mono (by omega) htail
      have := h1 (Token.and :: (e2.tokens ++ rest)) _ res n hstep (by omega)
      simpa only [Expr.tokens, List.append_assoc, List.cons_append] using this
    refine ⟨fun hg => ?_, fun hg => ?_, fun hg => ?_⟩
    · simp [Expr.gram] at hg
    · simp only [Expr.gram, Bool.and_eq_true, decide_eq_true_eq] at hg
      exact ht hg.1.2 hg.2
    · simp only [Expr.gram, Bool.and_eq_true, decide_eq_true_eq] at hg
      exact ExprParses_of_term (ht hg.1.2 hg.2)
  | or e1 e2 ih1 ih2 =>
    refine ⟨fun hg => ?_, fun hg => ?_, fun hg => ?_⟩
    · simp [Expr.gram] at hg
    · simp [Expr.gram] at hg
    · simp only [Expr.gram, Bool.and_eq_true, decide_eq_true_eq] at hg
      intro rest m res n hhead htail hn
      have h1 := ih1.2.2 hg.1.2
      have h2 := ih2.2.1 hg.2
      simp only [Expr.tokens, List.length_cons, List.length_append] at hn
      have hstep : parse_expr_tail (m + 5 * e2.tokens.length + 1) e1
          (Token.or :: (e2.tokens ++ rest)) = some res := by
        rw [parse_expr_tail,
          h2 rest 1 (e2, rest) _ (parse_term_tail_stop e2 hhead) (by omega)]
        exact parse_expr_tail_mono (by omega) htail
      have := h1 (Token.or :: (e2.tokens ++ rest)) _ res n (by simp) hstep (by omega)
      simpa only [Expr.tokens, List.append_assoc, List.cons_append] using this

/-- A well-formed text is parsed, and parsed as its tree. -/
theorem parse_expressio_of_WellFormed {expressio : Str} {e : Expr}
    (h : WellFormed expressio e) : parse_expressio expressio = some e := by
  obtain ⟨hg, items, trailing, hok, htr, htoks, htext⟩ := h
  have htok : tokenize expressio [] = e.tokens := by
    rw [htext, tokenize_layout items trailing htr [] rfl hok, word_token_nil, List.nil_append,
      htoks]
  have hparse : parse_expr (5 * e.tokens.length + 5) e.tokens = some (e, []) := by
    have := (parse_complete e).2.2 hg [] 1 (e, []) (5 * e.tokens.length + 5) (by simp)
      (parse_expr_tail_stop e (by simp)) (by omega)
    rwa [List.append_nil] at this
  unfold parse_expressio
  rw [htok, hparse]

/-! ### Queries on reachable states -/

/-- C9: for every reachable state of the agenda, every range of days [dia1, dia2] and every
non-empty well-formed expression (a text that lays out, with any white space, the tokens of
a tree of the grammar), the menu left by `consulta(dia1, dia2, expressio)` is sound and
complete. Every instant of the menu has its day neither before `dia1` nor after `dia2`, is
strictly later than the clock, and belongs to a task whose tag set satisfies the
expression; every task of the store in the range, later than the clock, whose tag set
satisfies the expression occurs in the menu exactly once; and the menu is in ascending
instant order. -/
theorem C9_consulta_sound_complete (a : Agenda) (dia1 dia2 : Dia) (expressio : Str) (e : Expr)
    (hreach : a.Reachable) (hne : expressio ≠ []) (hwf : WellFormed expressio e) :
    (∀ d ∈ (a.consulta dia1 dia2 expressio).menu_,
      d.first.lt dia1 = false ∧ dia2.lt d.first = false ∧ ordre_instant a.clock_ d = true ∧
      ∃ t, (d, t) ∈ a.tasks_ ∧ e.sat t.tags_.elems = true) ∧
    (∀ d t, (d, t) ∈ a.tasks_ → d.first.lt dia1 = false → dia2.lt d.first = false →
      ordre_instant a.clock_ d = true → e.sat t.tags_.elems = true →
      (a.consulta dia1 dia2 expressio).menu_.count d = 1) ∧
    AscendingInstants (a.consulta dia1 dia2 expressio).menu_ := by
  have hparse := parse_expressio_of_WellFormed hwf
  have hinv := Reachable_wf hreach
  have hmenu : (a.consulta dia1 dia2 expressio).menu_ = a.exp_parentitzada dia1 dia2 e := by
    unfold Agenda.consulta
    rw [if_neg hne, hparse]
  have hwin : ∀ d, a.finestra dia1 dia2 d = true ↔
      d.first.lt dia1 = false ∧ dia2.lt d.first = false ∧ ordre_instant a.clock_ d = true := by
    intro d
    unfold Agenda.finestra en_rang Agenda.es_passat
    simp only [Bool.and_eq_true, Bool.not_eq_true', Bool.not_eq_false']
    tauto
  obtain ⟨hasc, hmem⟩ := exp_parentitzada_spec hinv dia1 dia2 e
  rw [hmenu]
  refine ⟨?_, ?_, hasc⟩
  · intro d hd
    obtain ⟨hf, t, ht, hs⟩ := (hmem d).mp hd
    obtain ⟨h1, h2, h3⟩ := (hwin d).mp hf
    exact ⟨h1, h2, h3, t, ht, hs⟩
  · intro d t ht h1 h2 h3 hs
    apply List.count_eq_one_of_mem (AscendingInstants_nodup hasc)
    exact (hmem d).mpr ⟨(hwin d).mpr ⟨h1, h2, h3⟩, t, ht, hs⟩

/-- Witness for C9: in the scenario of the specification, reached by three insertions, the
query of the days 10.05.24 to 11.05.24 with the expression "(work OR home)  AND NOT urgent"
leaves the 09:00 task and the task of 11.05.24 in the menu, in this order. -/
theorem C9_consulta_sound_complete_witness :
    (escenari_assolit.consulta ⟨10, 5, 24⟩ ⟨11, 5, 24⟩
        "(work OR home)  AND NOT urgent".toList).menu_
      = [⟨⟨10, 5, 24⟩, ⟨9, 0⟩⟩, ⟨⟨11, 5, 24⟩, ⟨8, 0⟩⟩] ∧
    AscendingInstants
      (escenari_assolit.consulta ⟨10, 5, 24⟩ ⟨11, 5, 24⟩
        "(work OR home)  AND NOT urgent".toList).menu_ :=
  ⟨by decide,
    (C9_consulta_sound_complete escenari_assolit ⟨10, 5, 24⟩ ⟨11, 5, 24⟩
      "(work OR home)  AND NOT urgent".toList
      (Expr.and (Expr.group (Expr.or (Expr.tag "work".toList) (Expr.tag "home".toList)))
        (Expr.not "urgent".toList))
      (Agenda.Reachable.add_tasca _ _
        (Agenda.Reachable.add_tasca _ _
          (Agenda.Reachable.add_tasca _ _ (Agenda.Reachable.buida _))))
      (by decide)
      ⟨by decide,
        [([], Token.lpar), ([], Token.name "work".toList), ([' '], Token.or),
          ([' '], Token.name "home".toList), ([], Token.rpar), ([' ', ' '], Token.and),
          ([' '], Token.not), ([' '], Token.name "urgent".toList)],
        [], by decide, by decide, by decide, by decide⟩).2.2⟩

end AgendaPRO2
